import Mathlib

/-!
# Verification of the `bitcoin_node` client against its specification

A shallow embedding, in Lean 4, of the Rust sources of the `bitcoin_node`
repository (a toy Bitcoin testnet node / wallet), together with proofs and
refutations of specification claims about it.

Conventions used throughout:

* Rust `u8` bytes are modelled as `Nat` values (with `< 256` hypotheses where
  a statement needs them); machine-word encodings are explicit base-256
  little-endian lists.
* `Vec<u8>` becomes `List Nat`; `String` stays `String`.
* Rust functions that can panic on an out-of-range index are embedded
  as `Option`-valued (or, for the block parser, a three-valued result that
  separates a returned `Err` from a panic), so that panicking inputs are
  distinguishable from ordinary error returns.
* The SHA-256d hash and the base58 / secp256k1 primitives are not
  re-implemented; the functions that use them take the primitive as an
  explicit argument, and every theorem quantifies over it (adding only the
  hypotheses the primitive guarantees, e.g. that a SHA-256d digest has
  32 bytes).
* Monetary `f64` amounts are modelled as exact rationals (`ℚ`); the claims
  about them only involve field arithmetic and order comparisons.

The file is organised as: all definitions first, then all theorems.
-/

namespace Rustify

/-! ## Byte-level helpers -/

/-- Little-endian base-256 encoding of `n` on `k` bytes
(the embedding of Rust's `to_le_bytes`). -/
def toLE : Nat → Nat → List Nat
  | 0, _ => []
  | k + 1, n => n % 256 :: toLE k (n / 256)

/-- Value of a little-endian base-256 byte list
(the embedding of Rust's `from_le_bytes`). -/
def fromLE : List Nat → Nat
  | [] => 0
  | b :: bs => b + 256 * fromLE bs

/-! ## `src/compactsize.rs` — the `CompactSize` variable-width integer -/

/-- `CompactSize { number: Vec<u8> }`. -/
structure CompactSize where
  number : List Nat
deriving DecidableEq

/-- `CompactSize::new(value: u64)`: minimal-width encoding chosen by the
value ranges `..=252`, `253..=65535`, `65536..=4294967295`, else 8 bytes. -/
def CompactSize.new (value : Nat) : CompactSize :=
  if value ≤ 252 then ⟨[value]⟩
  else if value ≤ 65535 then ⟨0xfd :: toLE 2 value⟩
  else if value ≤ 4294967295 then ⟨0xfe :: toLE 4 value⟩
  else ⟨0xff :: toLE 8 value⟩

/-- `CompactSize::parse_to_u64(bytes, byte_array_ori)`: reads `byte_array_ori[0]`
when `bytes == 1`, otherwise the `bytes - 1` payload bytes
`byte_array_ori[1..bytes]`, zero-extended to a `u64`. -/
def CompactSize.parse_to_u64 (bytes : Nat) (byte_array_ori : List Nat) : Nat :=
  if bytes = 1 then byte_array_ori.getD 0 0
  else fromLE ((byte_array_ori.drop 1).take (bytes - 1))

/-- `CompactSize::parse_from_byte_array`: the tag byte `byte_array[0]` selects
the consumed width (`0xfd → 3`, `0xfe → 5`, `0xff → 9`, else `1`); the decoded
value is re-encoded through `CompactSize::new`.  `none` models the panics of
the source (`byte_array[0]` on an empty slice, `copy_from_slice` past the end). -/
def CompactSize.parse_from_byte_array (byte_array : List Nat) : Option (CompactSize × Nat) :=
  match byte_array with
  | [] => none
  | b :: _ =>
      let bytes := if b = 0xfd then 3 else if b = 0xfe then 5 else if b = 0xff then 9 else 1
      if byte_array.length < bytes then none
      else some (CompactSize.new (CompactSize.parse_to_u64 bytes byte_array), bytes)

/-- `CompactSize::value()`. -/
def CompactSize.value (cs : CompactSize) : Nat :=
  CompactSize.parse_to_u64 cs.number.length cs.number

/-- `CompactSize::as_bytes()`. -/
def CompactSize.as_bytes (cs : CompactSize) : List Nat := cs.number

/-- The canonical (minimal) CompactSize width for a value, as the spec states
it: 1 byte up to `0xFC`, 3 up to `0xFFFF`, 5 up to `0xFFFFFFFF`, 9 otherwise. -/
def canonicalWidth (n : Nat) : Nat :=
  if n ≤ 0xFC then 1 else if n ≤ 0xFFFF then 3 else if n ≤ 0xFFFFFFFF then 5 else 9

/-- The width consumed by `parse_from_byte_array`, implied by the tag byte. -/
def tagWidth (byte_array : List Nat) : Nat :=
  match byte_array with
  | [] => 1
  | b :: _ => if b = 0xfd then 3 else if b = 0xfe then 5 else if b = 0xff then 9 else 1

/-! ## `src/account.rs` — script opcodes and the P2PKH recogniser -/

def OP_DUP : Nat := 0x76

def OP_HASH160 : Nat := 0xa9

def OP_EQUALVERIFY : Nat := 0x88

def OP_CHECKSIG : Nat := 0xac

/-- `is_p2pkh(raw_pk_script, raw_pk_script_bytes)`: the `&&` chain of the
source, which short-circuits left to right; each index access
`raw_pk_script[i]` panics when out of range, modelled by `none`. -/
def is_p2pkh (raw_pk_script : List Nat) (raw_pk_script_bytes : Nat) : Option Bool :=
  if raw_pk_script_bytes = 0 then some false else
  match raw_pk_script.get? 0 with
  | none => none
  | some b0 =>
    if b0 ≠ OP_DUP then some false else
    match raw_pk_script.get? 1 with
    | none => none
    | some b1 =>
      if b1 ≠ OP_HASH160 then some false else
      match raw_pk_script.get? (raw_pk_script_bytes - 1) with
      | none => none
      | some bLast =>
        if bLast ≠ OP_CHECKSIG then some false else
        match raw_pk_script.get? (raw_pk_script_bytes - 2) with
        | none => none
        | some bPrev => some (decide (bPrev = OP_EQUALVERIFY))

/-! ## `src/block_header.rs` — block headers -/

/-- `BlockHeader`; each numeric field holds the bit pattern of the Rust
`i32`/`u32` value (`< 2^32`). -/
structure BlockHeader where
  version : Nat
  previous_block_header_hash : List Nat
  merkle_root_hash : List Nat
  time : Nat
  n_bits : Nat
  nonce : Nat
deriving DecidableEq

/-- `BlockHeader::as_bytes()`: the 80-byte encoding, little-endian fields in
declaration order. -/
def BlockHeader.as_bytes (h : BlockHeader) : List Nat :=
  toLE 4 h.version ++ h.previous_block_header_hash ++ h.merkle_root_hash
    ++ toLE 4 h.time ++ toLE 4 h.n_bits ++ toLE 4 h.nonce

/-! ## `src/block_validation.rs` — proof of work -/

/-- Big-endian 4-byte encoding of a `u32` (Rust `to_be_bytes`). -/
def toBE4 (n : Nat) : List Nat := (toLE 4 n).reverse

/-- The target expansion performed by `proof_of_work`: exponent byte
`n_bits >> 24`, 3-byte mantissa `n_bits & 0x00ffffff`, and
`target[32 - (e-3) - 3 - 1 .. 32 - (e-3)] = mantissa.to_be_bytes()` inside 32
zero bytes.  `none` models the panicking `u8`/`usize` subtractions when the
exponent is below 3 or above 31 (the source is run as a debug build, where
integer underflow panics). -/
def expandTarget (n_bits : Nat) : Option (List Nat) :=
  let exponente := n_bits >>> 24
  let mantisa := Nat.land n_bits 0x00ffffff
  if exponente < 3 then none
  else
    let desplazamiento := exponente - 3
    if 32 < desplazamiento + 4 then none
    else
      let inicio_slice := 32 - desplazamiento - 3 - 1
      let fin_slice := 32 - desplazamiento
      some (List.replicate inicio_slice 0 ++ toBE4 mantisa
        ++ List.replicate (32 - fin_slice) 0)

/-- The byte-comparison loop of `proof_of_work`: the first differing byte pair
decides (`hash[i] > target[i] → false`, `hash[i] < target[i] → true`), and the
all-equal case returns `false`. -/
def cmpLoop : List Nat → List Nat → Bool
  | h :: hs, t :: ts =>
      if h > t then false
      else if h < t then true
      else cmpLoop hs ts
  | _, _ => false

/-- `proof_of_work(header_bloque)`, parameterised by the SHA-256d primitive
(which returns the 32 digest bytes): compare the byte-reversed double hash of
the 80-byte header encoding against the expanded target. -/
def proof_of_work (sha256d : List Nat → List Nat) (header_bloque : BlockHeader) : Option Bool :=
  (expandTarget header_bloque.n_bits).map fun target =>
    cmpLoop (sha256d header_bloque.as_bytes).reverse target

/-- Spec-side definition: the numeric value of a byte list read in big-endian
order ("byte-wise big-endian comparison" compares these values). -/
def fromBE : List Nat → Nat
  | [] => 0
  | b :: bs => b * 256 ^ bs.length + fromBE bs

/-! ## `src/server_messages.rs` — answering `getheaders` -/

def MAX_HEADERS_POR_MENSAJE : Nat := 2000

/-- Association-list model of the `HashMap<Vec<u8>, usize>` lookup
(`headers_hash_height_map.get(&starting_hash)`). -/
def lookupHeight : List (List Nat × Nat) → List Nat → Option Nat
  | [], _ => none
  | (k, v) :: rest, key => if k = key then some v else lookupHeight rest key

/-- The inner `while` loop of `recibir_getheaders`.  The source iterates
`header_index` from `height + 1` while
`header_index < len_headers && header_index < max_headers_index
&& header_hash != stopping_hash`; here the headers still below `len_headers`
are the `remaining` list (`headers_vec.drop header_index`) and the distance to
`max_headers_index` is the `budget` (initially `MAX_HEADERS_POR_MENSAJE`).
Each emitted header is suffixed with a `0x00` transaction-count byte, and
`header_hash` becomes the SHA-256d of the header just emitted. -/
def headersLoop (sha256d : List Nat → List Nat) (stopping_hash : List Nat) :
    List BlockHeader → Nat → List Nat → List Nat × Nat
  | _, 0, _ => ([], 0)
  | [], _, _ => ([], 0)
  | hd :: rest, budget + 1, header_hash =>
      if header_hash = stopping_hash then ([], 0)
      else
        let header_bytes := hd.as_bytes
        let r := headersLoop sha256d stopping_hash rest budget (sha256d header_bytes)
        (header_bytes ++ 0x00 :: r.1, r.2 + 1)

/-- The locator scan of `recibir_getheaders`: the first starting hash found in
the hash → height map wins (the source `break`s), the reply starts after its
height; when no locator matches, the reply is the empty `headers` message
(no bytes, count 0). -/
def recibir_getheaders (sha256d : List Nat → List Nat) (headers_vec : List BlockHeader)
    (headers_hash_height : List (List Nat × Nat)) (stopping_hash : List Nat) :
    List (List Nat) → List Nat × Nat
  | [] => ([], 0)
  | starting_hash :: rest =>
      match lookupHeight headers_hash_height starting_hash with
      | some height =>
          headersLoop sha256d stopping_hash (headers_vec.drop (height + 1))
            MAX_HEADERS_POR_MENSAJE starting_hash
      | none =>
          recibir_getheaders sha256d headers_vec headers_hash_height stopping_hash rest

/-- Spec-side: the first locator hash present in the map, with its height. -/
def firstMatch (headers_hash_height : List (List Nat × Nat)) :
    List (List Nat) → Option (List Nat × Nat)
  | [] => none
  | starting_hash :: rest =>
      match lookupHeight headers_hash_height starting_hash with
      | some height => some (starting_hash, height)
      | none => firstMatch headers_hash_height rest

/-- Spec-side: keep elements up to and including the first one satisfying `p`. -/
def takeThrough (p : BlockHeader → Bool) : List BlockHeader → List BlockHeader
  | [] => []
  | h :: t => if p h then [h] else h :: takeThrough p t

/-- Spec-side: the headers a `getheaders` reply emits once a locator with
height `h` matched, out of the at most 2000 available headers following it:
truncated at — and including — the first header whose hash equals the stop
hash; nothing at all if the locator itself is the stop hash. -/
def emittedHeaders (sha256d : List Nat → List Nat) (stopping_hash starting_hash : List Nat)
    (avail : List BlockHeader) : List BlockHeader :=
  if starting_hash = stopping_hash then []
  else takeThrough (fun hd => decide (sha256d hd.as_bytes = stopping_hash)) avail

/-- Helper mirroring the loop's hash-chaining on a header list. -/
def emitLoop (sha256d : List Nat → List Nat) (stopping_hash : List Nat) :
    List Nat → List BlockHeader → List BlockHeader
  | _, [] => []
  | header_hash, hd :: rest =>
      if header_hash = stopping_hash then []
      else hd :: emitLoop sha256d stopping_hash (sha256d hd.as_bytes) rest

/-! ## `src/outpoint.rs`, `src/txin.rs`, `src/txout.rs`, `src/txn.rs` — transactions -/

/-- `OutPoint`; the txid hash is 32 bytes, the index a `u32`. -/
structure OutPoint where
  hash_previous_output_txid : List Nat
  output_index : Nat
deriving DecidableEq

/-- `TxIn`. -/
structure TxIn where
  previous_output : OutPoint
  script_bytes : CompactSize
  signature_script : List Nat
  sequence : Nat
deriving DecidableEq

/-- `TxOut`; `value_amount_satoshis` is the `i64` amount. -/
structure TxOut where
  value_amount_satoshis : Int
  pk_script_bytes : CompactSize
  pk_script : List Nat
deriving DecidableEq

/-- `Txn`; `version` holds the `i32` bit pattern, `tx_lock_time` the `u32`. -/
structure Txn where
  version : Nat
  tx_in_count : CompactSize
  tx_in : List TxIn
  tx_out_count : CompactSize
  tx_out : List TxOut
  tx_lock_time : Nat
deriving DecidableEq

/-- `OutPoint::as_bytes()`. -/
def OutPoint.as_bytes (o : OutPoint) : List Nat :=
  o.hash_previous_output_txid ++ toLE 4 o.output_index

/-- `TxIn::as_bytes()`. -/
def TxIn.as_bytes (t : TxIn) : List Nat :=
  t.previous_output.as_bytes ++ t.script_bytes.as_bytes ++ t.signature_script
    ++ toLE 4 t.sequence

/-- `TxOut::as_bytes()` (`i64::to_le_bytes` encodes the two's-complement bit
pattern, i.e. the value modulo `2^64`). -/
def TxOut.as_bytes (t : TxOut) : List Nat :=
  toLE 8 ((t.value_amount_satoshis % (2 ^ 64 : Int)).toNat)
    ++ t.pk_script_bytes.as_bytes ++ t.pk_script

/-- `Txn::as_bytes()`: the source loops over `0..tx_in_count.value()` indexing
`tx_in[index]` (and likewise for the outputs), which panics past the end of
the vector; `take` represents the in-range reads. -/
def Txn.as_bytes (t : Txn) : List Nat :=
  toLE 4 t.version ++ t.tx_in_count.as_bytes
    ++ (t.tx_in.take t.tx_in_count.value).flatMap TxIn.as_bytes
    ++ t.tx_out_count.as_bytes
    ++ (t.tx_out.take t.tx_out_count.value).flatMap TxOut.as_bytes
    ++ toLE 4 t.tx_lock_time

/-- One `format!("{:02X}", byte)` hex digit, already lowercased (the source
formats in uppercase and lowercases the joined string at the end). -/
def hexDigitLower (n : Nat) : Char :=
  if n < 10 then Char.ofNat (48 + n) else Char.ofNat (97 + (n - 10))

/-- The two lowercased hex digits of one byte. -/
def byteHexLower (b : Nat) : List Char := [hexDigitLower (b / 16), hexDigitLower (b % 16)]

/-- `TxIn::obtain_tx_id_of_previous_output()`: the previous-output txid bytes
hex-formatted, byte-reversed, joined and lowercased, with the output index. -/
def TxIn.obtain_tx_id_of_previous_output (t : TxIn) : String × Nat :=
  (⟨t.previous_output.hash_previous_output_txid.reverse.flatMap byteHexLower⟩,
    t.previous_output.output_index)

/-- `SerializedBlock`. -/
structure SerializedBlock where
  block_header : BlockHeader
  txn_count : CompactSize
  txns : List Txn
deriving DecidableEq

/-! ## `src/utxo.rs` — the initial two-pass UTXO scan

`Txn::obtain_tx_id` is `sha256d(bytes).to_string()`; the SHA-256d-and-format
primitive is the explicit `obtain_tx_id : List Nat → String` parameter.
`HashMap` state is modelled by lists: membership is `HashMap` membership,
`insert` prepends, `remove` deletes every copy of the key. -/

/-- A transaction key `(txid, output index)`. -/
abbrev TrxKey : Type := String × Nat

/-- `obtain_inputs`: every input's `(prev_txid, prev_index)`, over all blocks
in directory order, inserted into the set `S`. -/
def obtain_inputs (blocks : List SerializedBlock) : List TrxKey :=
  blocks.flatMap fun b =>
    b.txns.flatMap fun t => t.tx_in.map TxIn.obtain_tx_id_of_previous_output

/-- One output event of pass B (`obtain_utxos_from`): a key found in `inputs`
is removed from it (the output was spent inside the window), otherwise the
parent transaction is inserted into the UTXO map under the key. -/
def utxoStep (st : List TrxKey × List (TrxKey × Txn)) (ev : TrxKey × Txn) :
    List TrxKey × List (TrxKey × Txn) :=
  if ev.1 ∈ st.1 then (st.1.filter (fun k => decide (k ≠ ev.1)), st.2)
  else (st.1, (ev.1, ev.2) :: st.2)

/-- The `(key, parent transaction)` output events of one transaction, in
output order (`for output_index in 0..block.txns[tx_index].tx_out.len()`). -/
def txnOutputKeys (obtain_tx_id : List Nat → String) (t : Txn) : List (TrxKey × Txn) :=
  (List.range t.tx_out.length).map fun output_index =>
    ((obtain_tx_id t.as_bytes, output_index), t)

/-- All output events of the scanned collection, in scan order. -/
def outputEvents (obtain_tx_id : List Nat → String) (blocks : List SerializedBlock) :
    List (TrxKey × Txn) :=
  blocks.flatMap fun b => b.txns.flatMap (txnOutputKeys obtain_tx_id)

/-- `obtain_utxos_from`: pass B threads the `(inputs, utxos)` state through
every output event and returns the UTXO map. -/
def obtain_utxos_from (obtain_tx_id : List Nat → String) (inputs : List TrxKey)
    (blocks : List SerializedBlock) : List (TrxKey × Txn) :=
  ((outputEvents obtain_tx_id blocks).foldl utxoStep (inputs, [])).2

/-! ## `src/block_validation.rs` — merkle tree, merkle proof, reduction -/

/-- The TXIDs of a block: `sha256d(txns[i].as_bytes())` for
`i < txn_count.value()` (the source indexes `txns[i]`, which panics past the
end of the vector; `take` represents the in-range reads). -/
def blockTxids (sha256d : List Nat → List Nat) (bloque : SerializedBlock) : List (List Nat) :=
  (bloque.txns.take bloque.txn_count.value).map fun t => sha256d t.as_bytes

/-- Duplicate the last entry of an odd-length level
(`transacciones.push(transacciones.last().unwrap())`, mutating the stored
level in place). -/
def evenOut (l : List (List Nat)) : List (List Nat) :=
  if l.length % 2 ≠ 0 then l ++ [l.getLastD []] else l

/-- One hashing pass: `for i in (0..len).step_by(2)` hash the concatenation of
the entries at `i` and `i + 1` (`i = 2*j` below). -/
def hashPairs (sha256d : List Nat → List Nat) (l : List (List Nat)) : List (List Nat) :=
  (List.range (l.length / 2)).map fun j => sha256d (l.getD (2 * j) [] ++ l.getD (2 * j + 1) [])

/-- `generar_merkle_tree_root_hash`: hash pairs (after evening the level)
until a single hash remains.  The source recursion never terminates on an
empty list; the embedding returns `[]` there (every use is on a nonempty
leaf list). -/
def generar_merkle_tree_root_hash (sha256d : List Nat → List Nat)
    (transacciones : List (List Nat)) : List Nat :=
  if h1 : transacciones.length = 1 then transacciones.getD 0 []
  else if h0 : transacciones.length = 0 then []
  else generar_merkle_tree_root_hash sha256d (hashPairs sha256d (evenOut transacciones))
termination_by transacciones.length
decreasing_by
  simp only [hashPairs, evenOut, List.length_map, List.length_range]
  split_ifs <;> simp <;> omega

/-- `proof_of_inclusion`: the recomputed merkle root must equal the root
stored in the block header. -/
def proof_of_inclusion (sha256d : List Nat → List Nat) (bloque : SerializedBlock) : Bool :=
  decide (generar_merkle_tree_root_hash sha256d (blockTxids sha256d bloque)
    = bloque.block_header.merkle_root_hash)

/-- `generar_merkle_tree` / `generar_niveles_arbol`: the list of levels from
the leaves up to the root.  Each level of length at least 2 is stored in its
evened (padded) form, exactly as the source mutates `merkle_tree[indice]`
before hashing it.  On an empty leaf level the source loops forever; the
embedding returns that single level. -/
def buildLevels (sha256d : List Nat → List Nat) (nivel : List (List Nat)) :
    List (List (List Nat)) :=
  if h1 : nivel.length = 1 then [nivel]
  else if h0 : nivel.length = 0 then [nivel]
  else evenOut nivel :: buildLevels sha256d (hashPairs sha256d (evenOut nivel))
termination_by nivel.length
decreasing_by
  simp only [hashPairs, evenOut, List.length_map, List.length_range]
  split_ifs <;> simp <;> omega

/-- `generar_merkle_tree(bloque)`. -/
def generar_merkle_tree (sha256d : List Nat → List Nat) (bloque : SerializedBlock) :
    List (List (List Nat)) :=
  buildLevels sha256d (blockTxids sha256d bloque)

/-- `iter().position(|tx| tx == &transaccion)`. -/
def posicion (transaccion : List Nat) : List (List Nat) → Option Nat
  | [] => none
  | t :: rest => if t = transaccion then some 0 else (posicion transaccion rest).map (· + 1)

/-- The sibling-collecting loop of `merkle_proof`, over every level except
the root: an even index takes the right sibling, an odd one the left, and
the index halves at each level (`merkle_tree[indice_nivel][indice_hermano]`
is an in-range access, modelled by `getD`). -/
def proofLoop : List (List (List Nat)) → Nat → List (List Nat × String)
  | [], _ => []
  | nivel :: rest, indice_tx =>
      if indice_tx % 2 = 0 then
        (nivel.getD (indice_tx + 1) [], "right") :: proofLoop rest (indice_tx / 2)
      else
        (nivel.getD (indice_tx - 1) [], "left") :: proofLoop rest (indice_tx / 2)

/-- `merkle_proof(transaccion, bloque)`: locate the transaction in the leaf
level, push it tagged with its own side, then collect one sibling per level
below the root (`for (indice_nivel, _) … if indice_nivel == cant_niveles - 1
{ break }` — i.e. the loop runs over all levels but the last). -/
def merkle_proof (sha256d : List Nat → List Nat) (transaccion : List Nat)
    (bloque : SerializedBlock) : List (List Nat × String) :=
  let merkle_tree := generar_merkle_tree sha256d bloque
  if merkle_tree.length = 0 then []
  else
    match posicion transaccion (merkle_tree.getD 0 []) with
    | none => []
    | some indice_tx =>
        (transaccion, if indice_tx % 2 = 0 then "left" else "right")
          :: proofLoop merkle_tree.dropLast indice_tx

/-- The `reduce` of `generar_merkle_root_con_merkle_proof`, with the running
hash as accumulator: a "right"-tagged operand is appended on the right of the
accumulator, anything else on the left, and the concatenation is hashed. -/
def reduceFrom (sha256d : List Nat → List Nat) : List Nat → List (List Nat × String) → List Nat
  | acc, [] => acc
  | acc, (h, dir) :: rest =>
      if dir = "right" then reduceFrom sha256d (sha256d (acc ++ h)) rest
      else reduceFrom sha256d (sha256d (h ++ acc)) rest

/-- `generar_merkle_root_con_merkle_proof`: reduce the proof; an empty proof
yields the empty vector. -/
def generar_merkle_root_con_merkle_proof (sha256d : List Nat → List Nat) :
    List (List Nat × String) → List Nat
  | [] => []
  | (h, _) :: rest => reduceFrom sha256d h rest

/-! ## `src/errors.rs` — the error constructors the embedding needs -/

inductive RustifyError where
  | errorAlParsearBloque
  | walletSinFondosSuficientes
  | errorParseoTxn
  | errorConversionSecretKey
deriving DecidableEq

/-- Result of embedded fallible Rust code: an `Ok` value, a returned `Err`,
or a panic (an out-of-range slice index). -/
inductive PRes (α : Type) where
  | ok : α → PRes α
  | rerr : RustifyError → PRes α
  | panic : PRes α
deriving DecidableEq

/-- Rust slice `v[a..b]`: defined when `a ≤ b ≤ v.len()`, a panic otherwise. -/
def slice (v : List Nat) (a b : Nat) : Option (List Nat) :=
  if a ≤ b ∧ b ≤ v.length then some ((v.take b).drop a) else none

/-- The `i64` read by `from_le_bytes`, from its bit pattern. -/
def i64ofBits (bits : Nat) : Int :=
  if bits < 2 ^ 63 then (bits : Int) else (bits : Int) - 2 ^ 64

/-! ## The parsers: `OutPoint/TxIn/TxOut/Txn/BlockHeader/SerializedBlock::from_bytes` -/

/-- `OutPoint::from_bytes` (the argument is the 36-byte slice
`raw[index..index+36]`): txid bytes `[0..32]`, index `[32..36]` LE. -/
def OutPoint.from_bytes (outpoint_bytes : List Nat) : OutPoint :=
  { hash_previous_output_txid := outpoint_bytes.take 32,
    output_index := fromLE ((outpoint_bytes.drop 32).take 4) }

/-- `TxIn::from_bytes(raw, index)`: 36-byte outpoint, CompactSize script
length read through a fixed 10-byte window `raw[index..index+10]`, the
signature script, and the 4-byte sequence.  Every slice panics when it
over-runs the input. -/
def TxIn.from_bytes (raw : List Nat) (index : Nat) : PRes (TxIn × Nat) :=
  match slice raw index (index + 36) with
  | none => .panic
  | some outpoint_bytes =>
    let previous_output := OutPoint.from_bytes outpoint_bytes
    match slice raw (index + 36) (index + 36 + 10) with
    | none => .panic
    | some w =>
      match CompactSize.parse_from_byte_array w with
      | none => .panic
      | some (script_bytes, csize_index) =>
        let i2 := index + 36 + csize_index
        match slice raw i2 (i2 + script_bytes.value) with
        | none => .panic
        | some signature_script =>
          let i3 := i2 + script_bytes.value
          match slice raw i3 (i3 + 4) with
          | none => .panic
          | some seqb =>
              .ok (⟨previous_output, script_bytes, signature_script, fromLE seqb⟩, i3 + 4)

/-- `TxOut::from_bytes(raw, index)`: 8-byte value, CompactSize script length
through the 10-byte window, and the pk script. -/
def TxOut.from_bytes (raw : List Nat) (index : Nat) : PRes (TxOut × Nat) :=
  match slice raw index (index + 8) with
  | none => .panic
  | some vb =>
    let value_amount_satoshis := i64ofBits (fromLE vb)
    match slice raw (index + 8) (index + 8 + 10) with
    | none => .panic
    | some w =>
      match CompactSize.parse_from_byte_array w with
      | none => .panic
      | some (pk_script_bytes, csize_index) =>
        let i2 := index + 8 + csize_index
        match slice raw i2 (i2 + pk_script_bytes.value) with
        | none => .panic
        | some pk_script =>
            .ok (⟨value_amount_satoshis, pk_script_bytes, pk_script⟩, i2 + pk_script_bytes.value)

/-- The `for _i in 0..tx_in_count.value()` loop of `Txn::from_bytes`. -/
def parseTxIns (raw : List Nat) : Nat → Nat → PRes (List TxIn × Nat)
  | 0, index => .ok ([], index)
  | count + 1, index =>
      match TxIn.from_bytes raw index with
      | .panic => .panic
      | .rerr e => .rerr e
      | .ok (txin, index') =>
          match parseTxIns raw count index' with
          | .panic => .panic
          | .rerr e => .rerr e
          | .ok (rest, indexf) => .ok (txin :: rest, indexf)

/-- The `for _i in 0..tx_out_count.value()` loop of `Txn::from_bytes`. -/
def parseTxOuts (raw : List Nat) : Nat → Nat → PRes (List TxOut × Nat)
  | 0, index => .ok ([], index)
  | count + 1, index =>
      match TxOut.from_bytes raw index with
      | .panic => .panic
      | .rerr e => .rerr e
      | .ok (txout, index') =>
          match parseTxOuts raw count index' with
          | .panic => .panic
          | .rerr e => .rerr e
          | .ok (rest, indexf) => .ok (txout :: rest, indexf)

/-- `Txn::from_bytes(raw, index)`: version, input count (10-byte window),
inputs, output count (10-byte window), outputs, 4-byte lock time. -/
def Txn.from_bytes (raw : List Nat) (index : Nat) : PRes (Txn × Nat) :=
  match slice raw index (index + 4) with
  | none => .panic
  | some vb =>
    let version := fromLE vb
    match slice raw (index + 4) (index + 4 + 10) with
    | none => .panic
    | some w1 =>
      match CompactSize.parse_from_byte_array w1 with
      | none => .panic
      | some (tx_in_count, ci1) =>
        match parseTxIns raw tx_in_count.value (index + 4 + ci1) with
        | .panic => .panic
        | .rerr e => .rerr e
        | .ok (tx_in, i3) =>
          match slice raw i3 (i3 + 10) with
          | none => .panic
          | some w2 =>
            match CompactSize.parse_from_byte_array w2 with
            | none => .panic
            | some (tx_out_count, ci2) =>
              match parseTxOuts raw tx_out_count.value (i3 + ci2) with
              | .panic => .panic
              | .rerr e => .rerr e
              | .ok (tx_out, i5) =>
                match slice raw i5 (i5 + 4) with
                | none => .panic
                | some lb =>
                    .ok (⟨version, tx_in_count, tx_in, tx_out_count, tx_out, fromLE lb⟩,
                      i5 + 4)

/-- `BlockHeader::from_bytes` (the argument is the 80-byte slice
`block_bytes[0..80]`). -/
def BlockHeader.from_bytes (bytes : List Nat) : BlockHeader :=
  { version := fromLE (bytes.take 4),
    previous_block_header_hash := (bytes.take 36).drop 4,
    merkle_root_hash := (bytes.take 68).drop 36,
    time := fromLE ((bytes.take 72).drop 68),
    n_bits := fromLE ((bytes.take 76).drop 72),
    nonce := fromLE ((bytes.take 80).drop 76) }

/-- The `for _i in 0..txn_count.value()` loop of `SerializedBlock::from_bytes`. -/
def parseTxns (raw : List Nat) : Nat → Nat → PRes (List Txn × Nat)
  | 0, index => .ok ([], index)
  | count + 1, index =>
      match Txn.from_bytes raw index with
      | .panic => .panic
      | .rerr e => .rerr e
      | .ok (txn, index') =>
          match parseTxns raw count index' with
          | .panic => .panic
          | .rerr e => .rerr e
          | .ok (rest, indexf) => .ok (txn :: rest, indexf)

/-- `SerializedBlock::from_bytes`: the 80-byte header, the transaction count
read through the fixed window `block_bytes[80..90]`, the declared number of
transactions, and the final check
`block_bytes[index - 1..].to_vec().len() != 1` (leftover bytes are the
`ErrorAlParsearBloque` case; the final slice itself panics when
`index - 1 > len`). -/
def SerializedBlock.from_bytes (block_bytes : List Nat) : PRes SerializedBlock :=
  match slice block_bytes 0 80 with
  | none => .panic
  | some header_bytes =>
    let block_header := BlockHeader.from_bytes header_bytes
    match slice block_bytes 80 90 with
    | none => .panic
    | some w =>
      match CompactSize.parse_from_byte_array w with
      | none => .panic
      | some (txn_count, csize_bytes) =>
        match parseTxns block_bytes txn_count.value (80 + csize_bytes) with
        | .panic => .panic
        | .rerr e => .rerr e
        | .ok (txns, index) =>
          if block_bytes.length < index - 1 then .panic
          else if block_bytes.length - (index - 1) ≠ 1 then .rerr .errorAlParsearBloque
          else .ok ⟨block_header, txn_count, txns⟩

/-! ## `src/txn_info.rs`, `src/account.rs` — accounts and transaction info -/

inductive TxnType where
  | sending
  | sent
  | receiving
  | received
  | undefined
deriving DecidableEq

/-- `TxnInfo`; `amount` is the `f64` amount, modelled in ℚ. -/
structure TxnInfo where
  txn : Txn
  date : Nat
  txn_type : TxnType
  label : String
  amount : ℚ
  address : String
  bloque : String
deriving DecidableEq

/-- `Account`; `balance` and `pending_balance` are the `f64` amounts in ℚ;
`utxo_transaction` is the account's UTXO `HashMap` in iteration order. -/
structure Account where
  public_address : String
  private_address : String
  balance : ℚ
  pending_balance : ℚ
  utxo_transaction : List (TrxKey × Txn)
  sending_txn : List TxnInfo
  sent_txn : List TxnInfo
  receiving_txn : List TxnInfo
  saved_received_txn : List TxnInfo
deriving DecidableEq

instance : Inhabited TxOut := ⟨⟨0, ⟨[]⟩, []⟩⟩

instance : Inhabited TxIn := ⟨⟨⟨[], 0⟩, ⟨[]⟩, [], 0⟩⟩

/-- `amount_of_satoshis(output)`: the satoshi value divided by `1e8`. -/
def amount_of_satoshis (output : TxOut) : ℚ :=
  (output.value_amount_satoshis : ℚ) / 100000000

/-- The truncating Rust cast `x as i64` applied to an `f64` amount. -/
def as_i64 (q : ℚ) : Int := if 0 ≤ q then ⌊q⌋ else ⌈q⌉

/-! ## `src/outpoint.rs::obtain_txid_from_str` and `src/txin.rs::TxIn::new` -/

/-- Hex-digit test for `u8::from_str_radix(_, 16)`. -/
def isHexChar (c : Char) : Bool :=
  (48 ≤ c.toNat && c.toNat ≤ 57) || (97 ≤ c.toNat && c.toNat ≤ 102)
    || (65 ≤ c.toNat && c.toNat ≤ 70)

/-- A hex digit's value (either case). -/
def hexCharVal (c : Char) : Nat :=
  if 48 ≤ c.toNat ∧ c.toNat ≤ 57 then c.toNat - 48
  else if 97 ≤ c.toNat ∧ c.toNat ≤ 102 then c.toNat - 87
  else c.toNat - 55

/-- `u8::from_str_radix(chunk, 16).unwrap_or_default()`. -/
def from_str_radix16 (chunk : List Char) : Nat :=
  if chunk ≠ [] ∧ chunk.all isHexChar
  then chunk.foldl (fun a c => 16 * a + hexCharVal c) 0
  else 0

/-- `chunks(2)`. -/
def chunks2 : List Char → List (List Char)
  | [] => []
  | [a] => [[a]]
  | a :: b :: rest => [a, b] :: chunks2 rest

/-- `obtain_txid_from_str`: hex-decode the byte pairs, zero-pad to 32 bytes,
reverse (`copy_from_slice` into the 32-byte array panics when the string has
more than 32 byte pairs; the embedding returns `[]` there). -/
def obtain_txid_from_str (txid : String) : List Nat :=
  let hex_txid_bytes := (chunks2 txid.data).map from_str_radix16
  if hex_txid_bytes.length ≤ 32
  then (hex_txid_bytes ++ List.replicate (32 - hex_txid_bytes.length) 0).reverse
  else []

/-- `TxIn::new(trxkey, pk_script)` (unsigned at creation, sequence
`0xffffffff`). -/
def TxIn.new (trxkey : TrxKey) (pk_script : List Nat) : TxIn :=
  { previous_output := ⟨obtain_txid_from_str trxkey.1, trxkey.2⟩,
    script_bytes := CompactSize.new pk_script.length,
    signature_script := pk_script,
    sequence := 0xffffffff }

/-! ## `src/wallet_txn.rs` and `src/txn.rs::Txn::new` — creating a wallet
transaction

`Account::obtain_pk_script` (base58 address decoding) is the abstract
`pkScript` parameter; `LockTime::create()` (the system clock) is the abstract
`now`; the per-input signing pipeline `obtain_z` / `obtain_sec_der` /
`Script::new` (SHA-256d + secp256k1) is the abstract `mkSig` parameter,
`Except`-valued exactly like the source's chain of `?` operators. -/

/-- `TxOut::new(receptor, amount)`: `(amount * 100000000.0) as i64` and the
recipient's P2PKH script. -/
def TxOut.new (pkScript : Account → List Nat) (receptor : Account) (amount : ℚ) : TxOut :=
  let pk_script := pkScript receptor
  { value_amount_satoshis := as_i64 (amount * 100000000),
    pk_script_bytes := CompactSize.new pk_script.length,
    pk_script := pk_script }

/-- The first loop of `calcular_inputs_outputs`: the first UTXO (in iteration
order) whose referenced output alone covers the taxed amount. -/
def primeraUtxoSuficiente (importe_taxado : ℚ) :
    List (TrxKey × Txn) → Option (TrxKey × Txn)
  | [] => none
  | (trxkey, txn) :: rest =>
      if amount_of_satoshis (txn.tx_out.getD trxkey.2 default) ≥ importe_taxado
      then some (trxkey, txn)
      else primeraUtxoSuficiente importe_taxado rest

/-- The second loop of `calcular_inputs_outputs`: accumulate UTXOs in
iteration order, stopping as soon as the running total covers the taxed
amount (or the map is exhausted); returns the selected list and the total. -/
def acumularUtxos (importe_taxado : ℚ) (acc : ℚ) :
    List (TrxKey × Txn) → List (TrxKey × Txn) × ℚ
  | [] => ([], acc)
  | (trxkey, txn) :: rest =>
      let acc2 := acc + amount_of_satoshis (txn.tx_out.getD trxkey.2 default)
      if acc2 ≥ importe_taxado then ([(trxkey, txn)], acc2)
      else
        let r := acumularUtxos importe_taxado acc2 rest
        ((trxkey, txn) :: r.1, r.2)

/-- `calcular_inputs_outputs(importe_taxado, utxos)`: the UTXOs to spend and
the change `importe_sin_vuelto - importe_taxado`. -/
def calcular_inputs_outputs (importe_taxado : ℚ) (utxos : List (TrxKey × Txn)) :
    List (TrxKey × Txn) × ℚ :=
  match primeraUtxoSuficiente importe_taxado utxos with
  | some (trxkey, txn) =>
      ([(trxkey, txn)],
        amount_of_satoshis (txn.tx_out.getD trxkey.2 default) - importe_taxado)
  | none =>
      let r := acumularUtxos importe_taxado 0 utxos
      (r.1, r.2 - importe_taxado)

/-- `Txn::new(emisor, receptor, importe, vuelto, input_utxos)`: one input per
selected UTXO key, the payment output, and a change output back to the sender
only when `vuelto > 0`. -/
def Txn.new (pkScript : Account → List Nat) (now : Nat) (emisor receptor : Account)
    (importe vuelto : ℚ) (input_utxos : List (TrxKey × Txn)) : Txn :=
  let tx_in := input_utxos.map fun kv => TxIn.new kv.1 (pkScript emisor)
  let tx_out :=
    if vuelto > 0
    then [TxOut.new pkScript receptor importe, TxOut.new pkScript emisor vuelto]
    else [TxOut.new pkScript receptor importe]
  { version := 1,
    tx_in_count := CompactSize.new tx_in.length,
    tx_in := tx_in,
    tx_out_count := CompactSize.new tx_out.length,
    tx_out := tx_out,
    tx_lock_time := now }

/-- The per-input loop of `firmar`: replace input `i`'s signature script and
script length with the signature produced for the current transaction. -/
def firmarAux (mkSig : Txn → Nat → Except RustifyError (List Nat)) :
    Txn → List Nat → Except RustifyError Txn
  | t, [] => .ok t
  | t, i :: rest =>
      match mkSig t i with
      | .error e => .error e
      | .ok sigscript =>
          firmarAux mkSig
            { t with
                tx_in := t.tx_in.set i
                  { (t.tx_in.getD i default) with
                      signature_script := sigscript,
                      script_bytes := CompactSize.new sigscript.length } }
            rest

/-- `firmar(transaction, firmante)` over all input indices. -/
def firmar (mkSig : Txn → Nat → Except RustifyError (List Nat)) (transaction : Txn) :
    Except RustifyError Txn :=
  firmarAux mkSig transaction (List.range transaction.tx_in.length)

/-- `generar_txn`: refuse with `WalletSinFondosSuficientes` when the balance
is below `importe_btc + fee_btc`, otherwise select inputs and change, build
the transaction and sign it. -/
def generar_txn (pkScript : Account → List Nat) (now : Nat)
    (mkSig : Txn → Nat → Except RustifyError (List Nat))
    (emisor receptor : Account) (importe_btc fee_btc : ℚ) : Except RustifyError Txn :=
  let importe_taxado := importe_btc + fee_btc
  if emisor.balance ≥ importe_taxado then
    let r := calcular_inputs_outputs importe_taxado emisor.utxo_transaction
    firmar mkSig (Txn.new pkScript now emisor receptor importe_btc r.2 r.1)
  else .error .walletSinFondosSuficientes

/-- The total referenced value of a selection, for the specification
statements. -/
def sumAmounts (sel : List (TrxKey × Txn)) : ℚ :=
  (sel.map fun kv => amount_of_satoshis (kv.2.tx_out.getD kv.1.2 default)).sum

/-! ## `src/account.rs`, `src/wallet_events.rs` — confirming a received block

`Account::decode_bitcoin_adress` (base58 + SHA-256d) is the abstract
`decodeAddr` parameter, `Except`-valued like the source; `Txn::obtain_tx_id`
and `SerializedBlock::obtain_blockhash` (both `sha256d(bytes).to_string()`)
are the abstract `obtain_tx_id` and `obtain_blockhash` parameters;
`Script::obtain_public_adress` (signature-script decoding) is the abstract
`obtain_public_adress` parameter. -/

/-- `obtain_pubkey_hash(output)`: the pushed hash `pk_script[3..len-2]` of a
P2PKH script, the 16 zero bytes otherwise; `none` models the panics (an
`is_p2pkh` index out of range, the `pk_script.len() - 2` underflow, or an
invalid slice range). -/
def obtain_pubkey_hash (output : TxOut) : Option (List Nat) :=
  match is_p2pkh output.pk_script output.pk_script_bytes.value with
  | none => none
  | some false => some (List.replicate 16 0)
  | some true =>
      if output.pk_script.length < 2 then none
      else slice output.pk_script 3 (output.pk_script.length - 2)

/-- The scan loop of `Account::obtain_account_balance`: accumulate the value
of, and collect into the fresh map, every UTXO whose referenced output pays
`pk_hash`; `none` models the panics (`tx_out[trxkey.1]` out of range, an
`obtain_pubkey_hash` panic). -/
def accountUtxoScan (pk_hash : List Nat) (saldo : ℚ)
    (transacciones : List (TrxKey × Txn)) :
    List (TrxKey × Txn) → Option (ℚ × List (TrxKey × Txn))
  | [] => some (saldo, transacciones)
  | (trxkey, txn) :: rest =>
      match txn.tx_out.get? trxkey.2 with
      | none => none
      | some tx_out =>
          match obtain_pubkey_hash tx_out with
          | none => none
          | some tx_out_pk_hash =>
              if tx_out_pk_hash = pk_hash
              then accountUtxoScan pk_hash (saldo + amount_of_satoshis tx_out)
                     (transacciones ++ [(trxkey, txn)]) rest
              else accountUtxoScan pk_hash saldo transacciones rest

/-- `Account::obtain_account_balance(utxos)`: decode failure returns the
account unchanged, otherwise the balance and owned-UTXO map are recomputed
from `utxos`. -/
def obtain_account_balance (decodeAddr : String → Except RustifyError (List Nat))
    (a : Account) (utxos : List (TrxKey × Txn)) : Option Account :=
  match decodeAddr a.public_address with
  | .error _ => some a
  | .ok pk_hash =>
      match accountUtxoScan pk_hash 0 [] utxos with
      | none => none
      | some r => some { a with balance := r.1, utxo_transaction := r.2 }

/-- `Account::update_sending_txn(txid, bloque)` as a function of the
`sending_txn` list: the first entry whose txid matches is removed, and
returned (as a singleton to push onto `sent_txn`) retyped `Sent` and stamped
with the block hash; the loop breaks after the first match. -/
def update_sending_txn (obtain_tx_id : List Nat → String)
    (obtain_blockhash : List Nat → String) (txid : String)
    (bloque : SerializedBlock) :
    List TxnInfo → List TxnInfo × List TxnInfo
  | [] => ([], [])
  | info :: rest =>
      if obtain_tx_id info.txn.as_bytes = txid
      then (rest, [{ info with
                       txn_type := .sent,
                       bloque := obtain_blockhash bloque.block_header.as_bytes }])
      else
        let r := update_sending_txn obtain_tx_id obtain_blockhash txid bloque rest
        (info :: r.1, r.2)

/-- `Account::update_receiving_txn(txid, txn)` as a function of the
`receiving_txn` list: the first entry whose txid matches is removed and
returned retyped `Received` (to push onto `saved_received_txn`), with the
placeholder address replaced from the confirming transaction's first input;
`none` models the `txn.tx_in[0]` panic on an input-less transaction. -/
def update_receiving_txn (obtain_tx_id : List Nat → String)
    (obtain_public_adress : List Nat → Except RustifyError String)
    (txid : String) (txn : Txn) :
    List TxnInfo → Option (List TxnInfo × List TxnInfo)
  | [] => some ([], [])
  | info :: rest =>
      if obtain_tx_id info.txn.as_bytes = txid
      then
        if info.address = "-" then
          match txn.tx_in.get? 0 with
          | none => none
          | some txin0 =>
              some (rest,
                [{ info with
                     address :=
                       match obtain_public_adress txin0.signature_script with
                       | .ok s => s
                       | .error _ => "-",
                     txn_type := .received }])
        else some (rest, [{ info with txn_type := .received }])
      else
        match update_receiving_txn obtain_tx_id obtain_public_adress txid txn rest with
        | none => none
        | some r => some (info :: r.1, r.2)

/-- `Account::update_pending_balance`: the pending balance becomes the sum of
the pending-send amounts, each subtracted from `0.0`. -/
def pendingOf (l : List TxnInfo) : ℚ :=
  l.foldl (fun balance_pending i => balance_pending - i.amount) 0

/-- `Account::update_pending_balance` on the account record. -/
def update_pending_balance (a : Account) : Account :=
  { a with pending_balance := pendingOf a.sending_txn }

/-- The per-`(transaction, output)` body of the match loop of
`evento_recibir_bloque`, restricted to one account: when the output pays the
account's pubkey hash, the block's confirmation is applied to the pending
lists and the pending balance. -/
def procesarPar (decodeAddr : String → Except RustifyError (List Nat))
    (obtain_tx_id : List Nat → String) (obtain_blockhash : List Nat → String)
    (obtain_public_adress : List Nat → Except RustifyError String)
    (bloque : SerializedBlock) (txn : Txn) (txout : TxOut) (a : Account) :
    PRes Account :=
  match decodeAddr a.public_address with
  | .error e => .rerr e
  | .ok pubkey_hash =>
      match obtain_pubkey_hash txout with
      | none => .panic
      | some h =>
          if h = pubkey_hash then
            let txid := obtain_tx_id txn.as_bytes
            let s := update_sending_txn obtain_tx_id obtain_blockhash txid bloque
              a.sending_txn
            let a1 := { a with sending_txn := s.1, sent_txn := a.sent_txn ++ s.2 }
            match update_receiving_txn obtain_tx_id obtain_public_adress txid txn
                a1.receiving_txn with
            | none => .panic
            | some r =>
                .ok (update_pending_balance
                  { a1 with receiving_txn := r.1,
                            saved_received_txn := a1.saved_received_txn ++ r.2 })
          else .ok a

/-- The match loop of `evento_recibir_bloque` over the listed
`(transaction, output)` pairs, threading the account state. -/
def procesarPares (decodeAddr : String → Except RustifyError (List Nat))
    (obtain_tx_id : List Nat → String) (obtain_blockhash : List Nat → String)
    (obtain_public_adress : List Nat → Except RustifyError String)
    (bloque : SerializedBlock) :
    List (Txn × TxOut) → Account → PRes Account
  | [], a => .ok a
  | (txn, txout) :: rest, a =>
      match procesarPar decodeAddr obtain_tx_id obtain_blockhash
          obtain_public_adress bloque txn txout a with
      | .ok a2 => procesarPares decodeAddr obtain_tx_id obtain_blockhash
          obtain_public_adress bloque rest a2
      | .rerr e => .rerr e
      | .panic => .panic

/-- The `(transaction, output)` pairs visited by the nested
`tx_index`/`output_index` loops of `evento_recibir_bloque`, in loop order. -/
def bloquePares (bloque : SerializedBlock) : List (Txn × TxOut) :=
  bloque.txns.flatMap fun txn => txn.tx_out.map fun txout => (txn, txout)

/-- `evento_recibir_bloque` restricted to one account: first the balance and
owned-UTXO recomputation, then the match loop over the block's outputs. -/
def evento_recibir_bloque_cuenta (decodeAddr : String → Except RustifyError (List Nat))
    (obtain_tx_id : List Nat → String) (obtain_blockhash : List Nat → String)
    (obtain_public_adress : List Nat → Except RustifyError String)
    (utxos : List (TrxKey × Txn)) (bloque : SerializedBlock) (a : Account) :
    PRes Account :=
  match obtain_account_balance decodeAddr a utxos with
  | none => .panic
  | some a1 => procesarPares decodeAddr obtain_tx_id obtain_blockhash
      obtain_public_adress bloque (bloquePares bloque) a1

/-! ## Theorems: byte-level helpers -/

@[simp] theorem toLE_length (k n : Nat) : (toLE k n).length = k := by
  induction k generalizing n with
  | zero => rfl
  | succ k ih => simp [toLE, ih]

theorem fromLE_toLE (k n : Nat) (h : n < 256 ^ k) : fromLE (toLE k n) = n := by
  induction k generalizing n with
  | zero => simp [Nat.pow_zero] at h; simp [toLE, fromLE, h]
  | succ k ih =>
      have hdiv : n / 256 < 256 ^ k := by
        apply Nat.div_lt_of_lt_mul
        rw [Nat.mul_comm]
        exact lt_of_lt_of_le h (le_of_eq (Nat.pow_succ 256 k))
      simp [toLE, fromLE, ih (n / 256) hdiv]
      omega

theorem fromLE_lt (l : List Nat) (h : ∀ b ∈ l, b < 256) : fromLE l < 256 ^ l.length := by
  induction l with
  | nil => simp [fromLE]
  | cons b bs ih =>
      have hb : b < 256 := h b (List.mem_cons_self b bs)
      have hbs : fromLE bs < 256 ^ bs.length := ih fun x hx => h x (List.mem_cons_of_mem b hx)
      simp only [fromLE, List.length_cons, Nat.pow_succ]
      calc b + 256 * fromLE bs
          ≤ 255 + 256 * fromLE bs := by omega
        _ < 256 * (fromLE bs + 1) := by omega
        _ ≤ 256 * 256 ^ bs.length := Nat.mul_le_mul_left 256 hbs
        _ = 256 ^ bs.length * 256 := Nat.mul_comm _ _

theorem toLE_bytes_lt (k n : Nat) : ∀ b ∈ toLE k n, b < 256 := by
  induction k generalizing n with
  | zero => simp [toLE]
  | succ k ih =>
      intro b hb
      simp only [toLE, List.mem_cons] at hb
      rcases hb with h | h
      · subst h; exact Nat.mod_lt _ (by norm_num)
      · exact ih (n / 256) b h

/-! ## Theorems: `CompactSize` -/

theorem CompactSize.parse_to_u64_tag (b k n : Nat) (hk : 1 ≤ k) (hn : n < 256 ^ k) :
    CompactSize.parse_to_u64 (k + 1) (b :: toLE k n) = n := by
  have hne : ¬ (k + 1 = 1) := by omega
  simp only [CompactSize.parse_to_u64, if_neg hne, List.drop_succ_cons, List.drop_zero,
    Nat.add_sub_cancel]
  rw [List.take_of_length_le (by simp)]
  exact fromLE_toLE k n hn

theorem CompactSize.length_new (n : Nat) :
    (CompactSize.new n).number.length = canonicalWidth n := by
  unfold CompactSize.new canonicalWidth
  split
  · simp
  · split
    · simp
    · split <;> simp

theorem CompactSize.value_new (n : Nat) (h : n < 2 ^ 64) : (CompactSize.new n).value = n := by
  by_cases h1 : n ≤ 252
  · simp [CompactSize.new, if_pos h1, CompactSize.value, CompactSize.parse_to_u64]
  · by_cases h2 : n ≤ 65535
    · rw [CompactSize.new, if_neg h1, if_pos h2]
      show CompactSize.parse_to_u64 (0xfd :: toLE 2 n).length (0xfd :: toLE 2 n) = n
      simp only [List.length_cons, toLE_length]
      exact CompactSize.parse_to_u64_tag 0xfd 2 n (by omega) (by omega)
    · by_cases h3 : n ≤ 4294967295
      · rw [CompactSize.new, if_neg h1, if_neg h2, if_pos h3]
        show CompactSize.parse_to_u64 (0xfe :: toLE 4 n).length (0xfe :: toLE 4 n) = n
        simp only [List.length_cons, toLE_length]
        exact CompactSize.parse_to_u64_tag 0xfe 4 n (by omega) (by omega)
      · rw [CompactSize.new, if_neg h1, if_neg h2, if_neg h3]
        show CompactSize.parse_to_u64 (0xff :: toLE 8 n).length (0xff :: toLE 8 n) = n
        simp only [List.length_cons, toLE_length]
        refine CompactSize.parse_to_u64_tag 0xff 8 n (by omega) ?_
        have : (256 : Nat) ^ 8 = 2 ^ 64 := by norm_num
        omega

theorem CompactSize.parse_new (n : Nat) (h : n < 2 ^ 64) :
    CompactSize.parse_from_byte_array (CompactSize.new n).number
      = some (CompactSize.new n, canonicalWidth n) := by
  by_cases h1 : n ≤ 252
  · rw [CompactSize.new, if_pos h1]
    have hfd : ¬ n = 0xfd := by omega
    have hfe : ¬ n = 0xfe := by omega
    have hff : ¬ n = 0xff := by omega
    simp only [CompactSize.parse_from_byte_array, hfd, hfe, hff, if_false]
    simp [CompactSize.parse_to_u64, CompactSize.new, if_pos h1, canonicalWidth]
  · by_cases h2 : n ≤ 65535
    · rw [CompactSize.new, if_neg h1, if_pos h2]
      simp only [CompactSize.parse_from_byte_array, List.length_cons, toLE_length]
      norm_num
      rw [CompactSize.parse_to_u64_tag 0xfd 2 n (by omega) (by omega)]
      rw [CompactSize.new, if_neg h1, if_pos h2]
      simp [canonicalWidth, if_neg h1, if_pos h2]
    · by_cases h3 : n ≤ 4294967295
      · rw [CompactSize.new, if_neg h1, if_neg h2, if_pos h3]
        simp only [CompactSize.parse_from_byte_array, List.length_cons, toLE_length]
        norm_num
        rw [CompactSize.parse_to_u64_tag 0xfe 4 n (by omega) (by omega)]
        rw [CompactSize.new, if_neg h1, if_neg h2, if_pos h3]
        simp [canonicalWidth, if_neg h1, if_neg h2, if_pos h3]
      · rw [CompactSize.new, if_neg h1, if_neg h2, if_neg h3]
        simp only [CompactSize.parse_from_byte_array, List.length_cons, toLE_length]
        norm_num
        have h64 : n < 256 ^ 8 := by
          have : (256 : Nat) ^ 8 = 2 ^ 64 := by norm_num
          omega
        rw [CompactSize.parse_to_u64_tag 0xff 8 n (by omega) h64]
        rw [CompactSize.new, if_neg h1, if_neg h2, if_neg h3]
        simp [canonicalWidth, if_neg h1, if_neg h2, if_neg h3]

/-- The decoded value of a well-formed byte-valued input is below `2^64` and
its canonical width never exceeds the tag width. -/
theorem CompactSize.parse_to_u64_bounds (arr : List Nat) (hne : arr ≠ [])
    (hbytes : ∀ b ∈ arr, b < 256) :
    CompactSize.parse_to_u64 (tagWidth arr) arr < 2 ^ 64
      ∧ canonicalWidth (CompactSize.parse_to_u64 (tagWidth arr) arr) ≤ tagWidth arr := by
  match arr with
  | [] => exact absurd rfl hne
  | b :: rest =>
      have hb : b < 256 := hbytes b (List.mem_cons_self b rest)
      have hrest : ∀ x ∈ rest, x < 256 := fun x hx => hbytes x (List.mem_cons_of_mem b hx)
      have htail : ∀ (k : Nat), fromLE (rest.take k) < 256 ^ k := by
        intro k
        have h1 : fromLE (rest.take k) < 256 ^ (rest.take k).length :=
          fromLE_lt _ (fun x hx => hrest x (List.mem_of_mem_take hx))
        have h2 : (rest.take k).length ≤ k := by
          simp [List.length_take]
        exact lt_of_lt_of_le h1 (Nat.pow_le_pow_right (by norm_num) h2)
      by_cases hfd : b = 0xfd
      · have hw : tagWidth (b :: rest) = 3 := by simp [tagWidth, hfd]
        rw [hw]
        simp only [CompactSize.parse_to_u64, List.drop_succ_cons, List.drop_zero]
        norm_num
        have := htail 2
        constructor
        · calc fromLE (rest.take 2) < 256 ^ 2 := htail 2
            _ ≤ 2 ^ 64 := by norm_num
        · simp only [canonicalWidth]
          split
          · omega
          · split
            · omega
            · norm_num at this; omega
      · by_cases hfe : b = 0xfe
        · have hw : tagWidth (b :: rest) = 5 := by simp [tagWidth, hfd, hfe]
          rw [hw]
          simp only [CompactSize.parse_to_u64, List.drop_succ_cons, List.drop_zero]
          norm_num
          have := htail 4
          constructor
          · calc fromLE (rest.take 4) < 256 ^ 4 := htail 4
              _ ≤ 2 ^ 64 := by norm_num
          · simp only [canonicalWidth]
            split
            · omega
            · split
              · omega
              · split
                · omega
                · norm_num at this; omega
        · by_cases hff : b = 0xff
          · have hw : tagWidth (b :: rest) = 9 := by simp [tagWidth, hfd, hfe, hff]
            rw [hw]
            simp only [CompactSize.parse_to_u64, List.drop_succ_cons, List.drop_zero]
            norm_num
            have := htail 8
            have h64 : (256 : Nat) ^ 8 = 2 ^ 64 := by norm_num
            constructor
            · omega
            · simp only [canonicalWidth]
              split
              · omega
              · split
                · omega
                · split
                  · omega
                  · omega
          · have hw : tagWidth (b :: rest) = 1 := by simp [tagWidth, hfd, hfe, hff]
            rw [hw]
            norm_num [CompactSize.parse_to_u64]
            have hb252 : b ≤ 252 := by omega
            constructor
            · omega
            · simp [canonicalWidth, hb252]

/-! ## Claim C7 -/

/-- C7: for every `u64` value `n`, decoding the CompactSize encoding of `n`
yields `n` again (`parse_from_byte_array(CompactSize::new(n).as_bytes())`
returns a `CompactSize` whose `value()` is `n`), and the length of the
encoding equals the canonical width for `n` (1 byte for `n ≤ 0xFC`, 3 for
`0xFD ≤ n ≤ 0xFFFF`, 5 for `0x10000 ≤ n ≤ 0xFFFFFFFF`, 9 otherwise). -/
theorem c7_compactsize_roundtrip (n : Nat) (h : n < 2 ^ 64) :
    (∃ w, CompactSize.parse_from_byte_array (CompactSize.new n).as_bytes
        = some (CompactSize.new n, w))
      ∧ (CompactSize.new n).value = n
      ∧ (CompactSize.new n).as_bytes.length = canonicalWidth n :=
  ⟨⟨canonicalWidth n, CompactSize.parse_new n h⟩, CompactSize.value_new n h,
    CompactSize.length_new n⟩

/-- Witness for C7 at `n = 515`. -/
theorem c7_compactsize_roundtrip_witness :
    (515 : Nat) < 2 ^ 64
      ∧ ((∃ w, CompactSize.parse_from_byte_array (CompactSize.new 515).as_bytes
            = some (CompactSize.new 515, w))
          ∧ (CompactSize.new 515).value = 515
          ∧ (CompactSize.new 515).as_bytes.length = canonicalWidth 515) :=
  ⟨by norm_num, c7_compactsize_roundtrip 515 (by norm_num)⟩

/-! ## Claim C10 -/

/-- C10: for every well-formed CompactSize byte sequence,
`parse_from_byte_array` returns the minimal (canonical) encoding of the
decoded value together with the consumed width implied by the input's tag
byte; the decoded value is preserved by re-serialisation, the re-serialised
length is the canonical width, which never exceeds the consumed width, and is
strictly smaller exactly when the input was not minimally encoded. -/
theorem c10_parse_canonicalises (arr : List Nat) (hne : arr ≠ [])
    (hbytes : ∀ b ∈ arr, b < 256) (hwf : tagWidth arr ≤ arr.length) :
    ∃ cs, CompactSize.parse_from_byte_array arr = some (cs, tagWidth arr)
      ∧ cs = CompactSize.new (CompactSize.parse_to_u64 (tagWidth arr) arr)
      ∧ cs.value = CompactSize.parse_to_u64 (tagWidth arr) arr
      ∧ cs.as_bytes.length = canonicalWidth (CompactSize.parse_to_u64 (tagWidth arr) arr)
      ∧ cs.as_bytes.length ≤ tagWidth arr
      ∧ (canonicalWidth (CompactSize.parse_to_u64 (tagWidth arr) arr) < tagWidth arr
          → cs.as_bytes.length < tagWidth arr) := by
  obtain ⟨hlt, hcw⟩ := CompactSize.parse_to_u64_bounds arr hne hbytes
  refine ⟨CompactSize.new (CompactSize.parse_to_u64 (tagWidth arr) arr), ?_, rfl,
    CompactSize.value_new _ hlt, CompactSize.length_new _, ?_, ?_⟩
  · match arr with
    | [] => exact absurd rfl hne
    | b :: rest =>
        simp only [CompactSize.parse_from_byte_array]
        have : tagWidth (b :: rest)
            = if b = 0xfd then 3 else if b = 0xfe then 5 else if b = 0xff then 9 else 1 := by
          simp [tagWidth]
        rw [this] at hwf
        simp only [if_neg (Nat.not_lt.mpr hwf)]
        simp [tagWidth]
  · rw [CompactSize.as_bytes, CompactSize.length_new]
    exact hcw
  · intro hlt2
    rw [CompactSize.as_bytes, CompactSize.length_new]
    exact hlt2

/-- Witness for C10 at the non-minimal input `[0xfd, 0x05, 0x00]`
(a 3-byte encoding of the value 5, which re-serialises to 1 byte). -/
theorem c10_parse_canonicalises_witness :
    (([0xfd, 0x05, 0x00] : List Nat) ≠ []
        ∧ (∀ b ∈ ([0xfd, 0x05, 0x00] : List Nat), b < 256)
        ∧ tagWidth [0xfd, 0x05, 0x00] ≤ ([0xfd, 0x05, 0x00] : List Nat).length)
      ∧ ∃ cs, CompactSize.parse_from_byte_array [0xfd, 0x05, 0x00]
            = some (cs, tagWidth [0xfd, 0x05, 0x00])
          ∧ cs = CompactSize.new (CompactSize.parse_to_u64 (tagWidth [0xfd, 0x05, 0x00])
              [0xfd, 0x05, 0x00])
          ∧ cs.value = CompactSize.parse_to_u64 (tagWidth [0xfd, 0x05, 0x00]) [0xfd, 0x05, 0x00]
          ∧ cs.as_bytes.length
              = canonicalWidth (CompactSize.parse_to_u64 (tagWidth [0xfd, 0x05, 0x00])
                  [0xfd, 0x05, 0x00])
          ∧ cs.as_bytes.length ≤ tagWidth [0xfd, 0x05, 0x00]
          ∧ (canonicalWidth (CompactSize.parse_to_u64 (tagWidth [0xfd, 0x05, 0x00])
                [0xfd, 0x05, 0x00]) < tagWidth [0xfd, 0x05, 0x00]
              → cs.as_bytes.length < tagWidth [0xfd, 0x05, 0x00]) :=
  ⟨⟨by decide, by decide, by decide⟩,
    c10_parse_canonicalises [0xfd, 0x05, 0x00] (by decide) (by decide) (by decide)⟩

/-! ## Theorems: `is_p2pkh` -/

theorem drop_length_sub_two (l : List Nat) (h : 2 ≤ l.length) :
    l.drop (l.length - 2) = [l.getD (l.length - 2) 0, l.getD (l.length - 1) 0] := by
  induction l with
  | nil => simp at h
  | cons x xs ih =>
      rcases Nat.lt_or_ge xs.length 2 with hlt | hge
      · obtain ⟨y, rfl⟩ : ∃ y, xs = [y] := by
          match xs, hlt, h with
          | [], _, h => simp at h
          | [y], _, _ => exact ⟨y, rfl⟩
        simp [List.getD]
      · have hx : (x :: xs).length - 2 = (xs.length - 2) + 1 := by
          simp only [List.length_cons]; omega
        have hy : (x :: xs).length - 1 = (xs.length - 1) + 1 := by
          simp only [List.length_cons]; omega
        rw [hx, hy, List.drop_succ_cons, List.getD_cons_succ, List.getD_cons_succ, ih hge]

theorem is_p2pkh_singleton (x : Nat) : is_p2pkh [x] 1 ≠ some true := by
  intro h
  rw [is_p2pkh] at h
  simp only [show ([x].get? 0) = some x from rfl, show ([x].get? 1) = none from rfl,
    if_neg (show ¬ (1 : Nat) = 0 by decide)] at h
  split_ifs at h
  simp_all

theorem is_p2pkh_true_iff_getD (l : List Nat) (h2 : 2 ≤ l.length) :
    is_p2pkh l l.length = some true
      ↔ (l.getD 0 0 = 0x76 ∧ l.getD 1 0 = 0xa9
          ∧ l.getD (l.length - 1) 0 = 0xac ∧ l.getD (l.length - 2) 0 = 0x88) := by
  obtain ⟨x, y, t, rfl⟩ : ∃ x y t, l = x :: y :: t := by
    match l, h2 with
    | x :: y :: t, _ => exact ⟨x, y, t, rfl⟩
  have hne : ¬ ((x :: y :: t).length = 0) := by simp
  have hg0 : (x :: y :: t).get? 0 = some x := rfl
  have hg1 : (x :: y :: t).get? 1 = some y := rfl
  have hlen1 : (x :: y :: t).length - 1 < (x :: y :: t).length := by simp
  have hlen2 : (x :: y :: t).length - 2 < (x :: y :: t).length := by simp; omega
  have hgl : (x :: y :: t).get? ((x :: y :: t).length - 1)
      = some ((x :: y :: t).getD ((x :: y :: t).length - 1) 0) := by
    rw [List.getD_eq_getElem _ _ hlen1, List.get?_eq_getElem?, List.getElem?_eq_getElem hlen1]
  have hgp : (x :: y :: t).get? ((x :: y :: t).length - 2)
      = some ((x :: y :: t).getD ((x :: y :: t).length - 2) 0) := by
    rw [List.getD_eq_getElem _ _ hlen2, List.get?_eq_getElem?, List.getElem?_eq_getElem hlen2]
  have hD0 : (x :: y :: t).getD 0 0 = x := rfl
  have hD1 : (x :: y :: t).getD 1 0 = y := rfl
  rw [is_p2pkh]
  simp only [hg0, hg1, hgl, hgp, if_neg hne, hD0, hD1,
    OP_DUP, OP_HASH160, OP_CHECKSIG, OP_EQUALVERIFY]
  constructor
  · intro h
    split_ifs at h with c1 c2 c3
    · simp at h
    · simp at h
    · simp at h
    · rw [Option.some_inj] at h
      exact ⟨not_not.mp c1, not_not.mp c2, not_not.mp c3, of_decide_eq_true h⟩
  · rintro ⟨hx', hy', hA', hB'⟩
    rw [if_neg (not_not_intro hx'), if_neg (not_not_intro hy'), if_neg (not_not_intro hA'), hB']
    rfl

/-! ## Claim C1 -/

/-- C1 counterexample: the claim states that `is_p2pkh` returns `true` iff the
script starts with `0x76 0xA9 0x14`, ends with `0x88 0xAC` and has total
length 25.  The 4-byte script `[0x76, 0xA9, 0x88, 0xAC]` (with its declared
length 4) is accepted by `is_p2pkh` although it has no `0x14` push byte and
its length is not 25, so the claimed equivalence is false at this input. -/
theorem c1_p2pkh_counterexample :
    is_p2pkh [0x76, 0xa9, 0x88, 0xac] 4 = some true
      ∧ ¬ (List.take 3 [0x76, 0xa9, 0x88, 0xac] = ([0x76, 0xa9, 0x14] : List Nat)
            ∧ ([0x76, 0xa9, 0x88, 0xac] : List Nat).length = 25) := by
  constructor
  · rfl
  · decide

/-- C1 (amended): `is_p2pkh` checks only the first two and the last two bytes
of the script: it returns `true` (for a script with its declared length) iff
the script is `0x76 0xA9 · mid · 0x88 0xAC` for some (possibly empty) middle
part.  The `0x14` push byte and the total length 25 required by the claim are
not checked. -/
theorem c1_is_p2pkh_prefix_suffix (raw : List Nat) :
    is_p2pkh raw raw.length = some true
      ↔ ∃ mid, raw = 0x76 :: 0xa9 :: (mid ++ [0x88, 0xac]) := by
  rcases Nat.lt_or_ge raw.length 2 with hlt | hge
  · constructor
    · intro h
      exfalso
      match raw, hlt, h with
      | [], _, h => simp [is_p2pkh] at h
      | [x], _, h =>
          rw [show ([x].length) = 1 from rfl] at h
          exact is_p2pkh_singleton x h
    · rintro ⟨mid, rfl⟩
      exfalso
      simp only [List.length_cons, List.length_append, List.length_nil] at hlt
      omega
  · rw [is_p2pkh_true_iff_getD raw hge]
    constructor
    · rintro ⟨h0, h1, hlast, hprev⟩
      obtain ⟨x, y, t, rfl⟩ : ∃ x y t, raw = x :: y :: t := by
        match raw, hge with
        | x :: y :: t, _ => exact ⟨x, y, t, rfl⟩
      have hx : x = 0x76 := h0
      have hy : y = 0xa9 := h1
      subst hx
      subst hy
      rcases Nat.lt_or_ge t.length 2 with htlt | htge
      · exfalso
        match t, htlt, hlast, hprev with
        | [], _, hlast, _ => simp [List.getD] at hlast
        | [z], _, _, hprev => simp [List.getD] at hprev
      · refine ⟨t.take (t.length - 2), ?_⟩
        have hdec := drop_length_sub_two (0x76 :: 0xa9 :: t) (by simp)
        rw [hlast, hprev] at hdec
        have hsplit := List.take_append_drop ((0x76 :: 0xa9 :: t).length - 2) (0x76 :: 0xa9 :: t)
        rw [hdec] at hsplit
        have htake : (0x76 :: 0xa9 :: t).take ((0x76 :: 0xa9 :: t).length - 2)
            = 0x76 :: 0xa9 :: t.take (t.length - 2) := by
          have : (0x76 :: 0xa9 :: t).length - 2 = (t.length - 2) + 1 + 1 := by
            simp only [List.length_cons]; omega
          rw [this, List.take_succ_cons, List.take_succ_cons]
        rw [htake] at hsplit
        exact hsplit.symm
    · rintro ⟨mid, rfl⟩
      refine ⟨rfl, rfl, ?_, ?_⟩
      · have hlen : (0x76 :: 0xa9 :: (mid ++ [0x88, 0xac]) : List Nat).length - 1
            = mid.length + 1 + 1 + 1 := by
          simp only [List.length_cons, List.length_append, List.length_nil]
          omega
        rw [hlen, List.getD_cons_succ, List.getD_cons_succ,
          List.getD_append_right _ _ _ _ (by omega)]
        have hone : mid.length + 1 - mid.length = 1 := by omega
        rw [hone]
        rfl
      · have hlen : (0x76 :: 0xa9 :: (mid ++ [0x88, 0xac]) : List Nat).length - 2
            = mid.length + 1 + 1 := by
          simp only [List.length_cons, List.length_append, List.length_nil]
          omega
        rw [hlen, List.getD_cons_succ, List.getD_cons_succ,
          List.getD_append_right _ _ _ _ (by omega)]
        have hzero : mid.length - mid.length = 0 := by omega
        rw [hzero]
        rfl

/-! ## Theorems: proof of work -/

theorem fromBE_lt_pow (l : List Nat) (h : ∀ b ∈ l, b < 256) : fromBE l < 256 ^ l.length := by
  induction l with
  | nil => simp [fromBE]
  | cons b bs ih =>
      have hb : b < 256 := h b (List.mem_cons_self b bs)
      have hbs := ih fun x hx => h x (List.mem_cons_of_mem b hx)
      simp only [fromBE, List.length_cons, Nat.pow_succ]
      calc b * 256 ^ bs.length + fromBE bs
          < b * 256 ^ bs.length + 256 ^ bs.length := by omega
        _ = (b + 1) * 256 ^ bs.length := (Nat.succ_mul b (256 ^ bs.length)).symm
        _ ≤ 256 * 256 ^ bs.length := Nat.mul_le_mul_right _ (by omega)
        _ = 256 ^ bs.length * 256 := Nat.mul_comm _ _

theorem cmpLoop_true_iff (a : List Nat) : ∀ (b : List Nat), a.length = b.length
    → (∀ x ∈ a, x < 256) → (∀ x ∈ b, x < 256)
    → (cmpLoop a b = true ↔ fromBE a < fromBE b) := by
  induction a with
  | nil =>
      intro b hlen _ _
      match b, hlen with
      | [], _ => simp [cmpLoop, fromBE]
  | cons x xs ih =>
      intro b hlen ha hb
      match b, hlen with
      | y :: ys, hlen =>
          have hlen' : xs.length = ys.length := by simpa using hlen
          have hxs : ∀ v ∈ xs, v < 256 := fun v hv => ha v (List.mem_cons_of_mem _ hv)
          have hys : ∀ v ∈ ys, v < 256 := fun v hv => hb v (List.mem_cons_of_mem _ hv)
          have hfx := fromBE_lt_pow xs hxs
          have hfy : fromBE ys < 256 ^ xs.length := by
            rw [hlen']; exact fromBE_lt_pow ys hys
          rw [cmpLoop]
          simp only [fromBE, ← hlen']
          rcases Nat.lt_trichotomy x y with hxy | hxy | hxy
          · rw [if_neg (by omega), if_pos hxy]
            simp only [true_iff]
            calc x * 256 ^ xs.length + fromBE xs
                < x * 256 ^ xs.length + 256 ^ xs.length := by omega
              _ = (x + 1) * 256 ^ xs.length := (Nat.succ_mul x _).symm
              _ ≤ y * 256 ^ xs.length := Nat.mul_le_mul_right _ (by omega)
              _ ≤ y * 256 ^ xs.length + fromBE ys := Nat.le_add_right _ _
          · subst hxy
            rw [if_neg (by omega), if_neg (by omega), ih ys hlen' hxs hys]
            exact (Nat.add_lt_add_iff_left).symm
          · rw [if_pos hxy]
            constructor
            · intro h
              exact absurd h (by simp)
            · intro h
              exfalso
              have : y * 256 ^ xs.length + fromBE ys < x * 256 ^ xs.length := by
                calc y * 256 ^ xs.length + fromBE ys
                    < y * 256 ^ xs.length + 256 ^ xs.length := by omega
                  _ = (y + 1) * 256 ^ xs.length := (Nat.succ_mul y _).symm
                  _ ≤ x * 256 ^ xs.length := Nat.mul_le_mul_right _ (by omega)
              omega

theorem expandTarget_length_bytes (n_bits : Nat) (target : List Nat)
    (h : expandTarget n_bits = some target) :
    target.length = 32 ∧ ∀ b ∈ target, b < 256 := by
  simp only [expandTarget] at h
  split_ifs at h with h1 h2
  rw [Option.some_inj] at h
  subst h
  constructor
  · simp only [List.length_append, List.length_replicate, toBE4, List.length_reverse, toLE_length]
    omega
  · intro b hbmem
    simp only [List.mem_append, List.mem_replicate, toBE4, List.mem_reverse] at hbmem
    rcases hbmem with (⟨_, rfl⟩ | hbm) | ⟨_, rfl⟩
    · omega
    · exact toLE_bytes_lt 4 _ b hbm
    · omega

/-! ## Claim C2 -/

/-- C2: for every block header whose compact `nBits` expands (1-byte exponent,
3-byte mantissa) to a 32-byte target, `proof_of_work` returns `true` iff the
byte-reversed SHA-256d of the 80-byte header encoding is strictly smaller,
under byte-wise big-endian comparison, than the target; in particular whenever
the hash is greater than or equal to the target (including exact equality) it
returns `false`.  Quantified over the SHA-256d primitive, assumed only to
return 32 digest bytes. -/
theorem c2_proof_of_work_iff (sha256d : List Nat → List Nat) (header : BlockHeader)
    (target : List Nat)
    (hlen : (sha256d header.as_bytes).length = 32)
    (hbytes : ∀ b ∈ sha256d header.as_bytes, b < 256)
    (htarget : expandTarget header.n_bits = some target) :
    (proof_of_work sha256d header = some true
        ↔ fromBE (sha256d header.as_bytes).reverse < fromBE target)
      ∧ (fromBE target ≤ fromBE (sha256d header.as_bytes).reverse
          → proof_of_work sha256d header = some false) := by
  obtain ⟨htlen, htbytes⟩ := expandTarget_length_bytes header.n_bits target htarget
  have hrevlen : (sha256d header.as_bytes).reverse.length = target.length := by
    rw [List.length_reverse, hlen, htlen]
  have hrevbytes : ∀ x ∈ (sha256d header.as_bytes).reverse, x < 256 := by
    intro x hx
    exact hbytes x (List.mem_reverse.mp hx)
  have hiff := cmpLoop_true_iff (sha256d header.as_bytes).reverse target hrevlen
    hrevbytes htbytes
  have hpow : proof_of_work sha256d header
      = some (cmpLoop (sha256d header.as_bytes).reverse target) := by
    rw [proof_of_work, htarget, Option.map_some']
  constructor
  · rw [hpow, Option.some_inj]
    exact hiff
  · intro hge
    rw [hpow, Option.some_inj]
    rw [← Bool.not_eq_true, hiff]
    omega

/-- Witness for C2: a concrete header with `nBits = 0x1d00ffff` and a concrete
(constant) 32-byte digest function. -/
theorem c2_proof_of_work_iff_witness :
    (((fun _ => List.replicate 32 0) : List Nat → List Nat)
          ((BlockHeader.mk 2 (List.replicate 32 0) (List.replicate 32 0) 0 0x1d00ffff
            7).as_bytes)).length = 32
      ∧ expandTarget 0x1d00ffff
          = some (List.replicate 2 0 ++ toBE4 0xffff ++ List.replicate 26 0)
      ∧ ((proof_of_work (fun _ => List.replicate 32 0)
            (BlockHeader.mk 2 (List.replicate 32 0) (List.replicate 32 0) 0 0x1d00ffff 7)
              = some true
          ↔ fromBE ((fun _ => List.replicate 32 0)
              ((BlockHeader.mk 2 (List.replicate 32 0) (List.replicate 32 0) 0 0x1d00ffff
                7).as_bytes)).reverse
            < fromBE (List.replicate 2 0 ++ toBE4 0xffff ++ List.replicate 26 0))
        ∧ (fromBE (List.replicate 2 0 ++ toBE4 0xffff ++ List.replicate 26 0)
            ≤ fromBE ((fun _ => List.replicate 32 0)
                ((BlockHeader.mk 2 (List.replicate 32 0) (List.replicate 32 0) 0 0x1d00ffff
                  7).as_bytes)).reverse
            → proof_of_work (fun _ => List.replicate 32 0)
                (BlockHeader.mk 2 (List.replicate 32 0) (List.replicate 32 0) 0 0x1d00ffff 7)
                = some false)) :=
  ⟨by decide, by decide,
    c2_proof_of_work_iff (fun _ => List.replicate 32 0)
      (BlockHeader.mk 2 (List.replicate 32 0) (List.replicate 32 0) 0 0x1d00ffff 7)
      (List.replicate 2 0 ++ toBE4 0xffff ++ List.replicate 26 0)
      (by decide) (by decide) (by decide)⟩

/-! ## Theorems: `getheaders` replies -/

theorem headersLoop_eq_emitLoop (sha256d : List Nat → List Nat) (stop : List Nat)
    (avail : List BlockHeader) : ∀ (budget : Nat) (cur : List Nat),
    headersLoop sha256d stop avail budget cur
      = ((emitLoop sha256d stop cur (avail.take budget)).flatMap (fun e => e.as_bytes ++ [0x00]),
          (emitLoop sha256d stop cur (avail.take budget)).length) := by
  induction avail with
  | nil =>
      intro budget cur
      cases budget <;> simp [headersLoop, emitLoop]
  | cons hd rest ih =>
      intro budget cur
      cases budget with
      | zero => simp [headersLoop, emitLoop]
      | succ b =>
          rw [List.take_succ_cons]
          by_cases hc : cur = stop
          · simp [headersLoop, emitLoop, hc]
          · simp only [headersLoop, emitLoop, if_neg hc, ih b (sha256d hd.as_bytes),
              List.flatMap_cons]
            simp

theorem emitLoop_eq_emittedHeaders (sha256d : List Nat → List Nat) (stop : List Nat)
    (avail : List BlockHeader) : ∀ (cur : List Nat),
    emitLoop sha256d stop cur avail = emittedHeaders sha256d stop cur avail := by
  induction avail with
  | nil =>
      intro cur
      by_cases hc : cur = stop <;> simp [emitLoop, emittedHeaders, takeThrough, hc]
  | cons hd rest ih =>
      intro cur
      by_cases hc : cur = stop
      · simp [emitLoop, emittedHeaders, hc]
      · by_cases hp : sha256d hd.as_bytes = stop
        · simp [emitLoop, emittedHeaders, takeThrough, hc, hp, ih, if_neg hc]
        · simp [emitLoop, emittedHeaders, takeThrough, hc, hp, ih, if_neg hc]

theorem emitLoop_length_le (sha256d : List Nat → List Nat) (stop : List Nat)
    (avail : List BlockHeader) : ∀ (cur : List Nat),
    (emitLoop sha256d stop cur avail).length ≤ avail.length := by
  induction avail with
  | nil => intro cur; simp [emitLoop]
  | cons hd rest ih =>
      intro cur
      by_cases hc : cur = stop
      · simp [emitLoop, hc]
      · simp only [emitLoop, if_neg hc, List.length_cons]
        exact Nat.succ_le_succ (ih (sha256d hd.as_bytes))

/-! ## Claim C6 -/

/-- C6 counterexample: the claim says the reply contains the headers following
the first matched locator "up to but not including the header whose hash
equals the stop hash".  With a two-header chain, the locator at height 0 and
the stop hash equal to the hash of the header at height 1, the claim predicts
an empty reply, but the code emits that header (and only then stops, because
the stop-hash comparison is made against the hash of the header it has just
appended): the reply count is 1, not 0. -/
theorem c6_getheaders_counterexample :
    (recibir_getheaders (fun b => [b.getD 76 0])
        [⟨0, List.replicate 32 0, List.replicate 32 0, 0, 0, 0⟩,
          ⟨0, List.replicate 32 0, List.replicate 32 0, 0, 0, 1⟩]
        [([0], 0)] [1] [[0]]).2 = 1
      ∧ (List.takeWhile (fun hd => decide (¬ (fun (b : List Nat) => [b.getD 76 0])
              hd.as_bytes = [1]))
          (([⟨0, List.replicate 32 0, List.replicate 32 0, 0, 0, 0⟩,
              (⟨0, List.replicate 32 0, List.replicate 32 0, 0, 0, 1⟩ : BlockHeader)].drop
                (0 + 1)).take MAX_HEADERS_POR_MENSAJE)).length = 0 := by
  constructor
  · rfl
  · rfl

/-- C6 (amended): a `getheaders` reply contains at most 2000 headers, each
suffixed with a `0x00` transaction-count byte; the emitted headers are those
following the first locator hash found in the hash → height index, up to and
including the first header whose hash equals the stop hash (none at all when
the locator itself is the stop hash); if no locator matches, the reply is the
empty headers message (count 0). -/
theorem c6_getheaders_reply (sha256d : List Nat → List Nat) (headers_vec : List BlockHeader)
    (headers_hash_height : List (List Nat × Nat)) (stopping_hash : List Nat)
    (locs : List (List Nat)) :
    (firstMatch headers_hash_height locs = none
        → recibir_getheaders sha256d headers_vec headers_hash_height stopping_hash locs
          = ([], 0))
    ∧ (∀ s h, firstMatch headers_hash_height locs = some (s, h)
        → recibir_getheaders sha256d headers_vec headers_hash_height stopping_hash locs
          = ((emittedHeaders sha256d stopping_hash s
                ((headers_vec.drop (h + 1)).take MAX_HEADERS_POR_MENSAJE)).flatMap
              (fun e => e.as_bytes ++ [0x00]),
             (emittedHeaders sha256d stopping_hash s
                ((headers_vec.drop (h + 1)).take MAX_HEADERS_POR_MENSAJE)).length))
    ∧ (recibir_getheaders sha256d headers_vec headers_hash_height stopping_hash locs).2
        ≤ MAX_HEADERS_POR_MENSAJE := by
  induction locs with
  | nil =>
      refine ⟨fun _ => rfl, fun s h hm => ?_, by simp [recibir_getheaders]⟩
      simp [firstMatch] at hm
  | cons s0 rest ih =>
      cases hl : lookupHeight headers_hash_height s0 with
      | some height =>
          have hrun : recibir_getheaders sha256d headers_vec headers_hash_height stopping_hash
              (s0 :: rest)
              = headersLoop sha256d stopping_hash (headers_vec.drop (height + 1))
                  MAX_HEADERS_POR_MENSAJE s0 := by
            rw [recibir_getheaders, hl]
          have hfm : firstMatch headers_hash_height (s0 :: rest) = some (s0, height) := by
            rw [firstMatch, hl]
          have hloop := headersLoop_eq_emitLoop sha256d stopping_hash
            (headers_vec.drop (height + 1)) MAX_HEADERS_POR_MENSAJE s0
          have htake : ((headers_vec.drop (height + 1)).take MAX_HEADERS_POR_MENSAJE)
              = (headers_vec.drop (height + 1)).take MAX_HEADERS_POR_MENSAJE := rfl
          refine ⟨fun hnone => ?_, fun s h hm => ?_, ?_⟩
          · rw [hfm] at hnone
            exact Option.noConfusion hnone
          · rw [hfm, Option.some_inj] at hm
            injection hm with hs hh
            subst hs
            subst hh
            rw [hrun, hloop, emitLoop_eq_emittedHeaders]
          · rw [hrun, hloop]
            calc (emitLoop sha256d stopping_hash s0
                    ((headers_vec.drop (height + 1)).take MAX_HEADERS_POR_MENSAJE)).length
                ≤ ((headers_vec.drop (height + 1)).take MAX_HEADERS_POR_MENSAJE).length :=
                  emitLoop_length_le _ _ _ _
              _ ≤ MAX_HEADERS_POR_MENSAJE := List.length_take_le _ _
      | none =>
          have hrun : recibir_getheaders sha256d headers_vec headers_hash_height stopping_hash
              (s0 :: rest)
              = recibir_getheaders sha256d headers_vec headers_hash_height stopping_hash rest := by
            rw [recibir_getheaders, hl]
          have hfm : firstMatch headers_hash_height (s0 :: rest)
              = firstMatch headers_hash_height rest := by
            rw [firstMatch, hl]
          rw [hrun, hfm]
          exact ih

/-- Witness for C6 at a concrete two-header chain: the locator at height 0
matches, and the reply is exactly the characterised emission. -/
theorem c6_getheaders_reply_witness :
    firstMatch [([0], 0)] [[0]] = some ([0], 0)
      ∧ recibir_getheaders (fun b => [b.getD 76 0])
          [⟨0, List.replicate 32 0, List.replicate 32 0, 0, 0, 0⟩,
            ⟨0, List.replicate 32 0, List.replicate 32 0, 0, 0, 1⟩]
          [([0], 0)] [1] [[0]]
        = ((emittedHeaders (fun b => [b.getD 76 0]) [1] [0]
              (([(⟨0, List.replicate 32 0, List.replicate 32 0, 0, 0, 0⟩ : BlockHeader),
                  ⟨0, List.replicate 32 0, List.replicate 32 0, 0, 0, 1⟩].drop
                    (0 + 1)).take MAX_HEADERS_POR_MENSAJE)).flatMap
            (fun e => e.as_bytes ++ [0x00]),
           (emittedHeaders (fun b => [b.getD 76 0]) [1] [0]
              (([(⟨0, List.replicate 32 0, List.replicate 32 0, 0, 0, 0⟩ : BlockHeader),
                  ⟨0, List.replicate 32 0, List.replicate 32 0, 0, 0, 1⟩].drop
                    (0 + 1)).take MAX_HEADERS_POR_MENSAJE)).length) :=
  ⟨rfl,
    (c6_getheaders_reply (fun b => [b.getD 76 0])
      [⟨0, List.replicate 32 0, List.replicate 32 0, 0, 0, 0⟩,
        ⟨0, List.replicate 32 0, List.replicate 32 0, 0, 0, 1⟩]
      [([0], 0)] [1] [[0]]).2.1 [0] 0 rfl⟩

/-! ## Theorems: the UTXO scan -/

theorem utxoFold_closure (ref : List TrxKey) :
    ∀ (events : List (TrxKey × Txn)) (S : List TrxKey) (U : List (TrxKey × Txn)),
      (events.map Prod.fst).Nodup
      → (∀ k ∈ U.map Prod.fst, k ∉ ref)
      → (∀ k ∈ ref, k ∈ events.map Prod.fst → k ∈ S)
      → ∀ k ∈ ((events.foldl utxoStep (S, U)).2).map Prod.fst, k ∉ ref := by
  intro events
  induction events with
  | nil =>
      intro S U _ hU _ k hk
      exact hU k hk
  | cons ev rest ih =>
      intro S U hnd hU hS k hk
      rw [List.foldl_cons] at hk
      rw [List.map_cons, List.nodup_cons] at hnd
      by_cases hin : ev.1 ∈ S
      · rw [show utxoStep (S, U) ev = (S.filter (fun k => decide (k ≠ ev.1)), U) by
          simp [utxoStep, hin]] at hk
        refine ih (S.filter fun k => decide (k ≠ ev.1)) U hnd.2 hU ?_ k hk
        intro k' hk'ref hk'rest
        have hne : k' ≠ ev.1 := fun he => hnd.1 (he ▸ hk'rest)
        have hmem : k' ∈ S := hS k' hk'ref (List.mem_cons_of_mem _ hk'rest)
        rw [List.mem_filter]
        exact ⟨hmem, by simpa using hne⟩
      · rw [show utxoStep (S, U) ev = (S, (ev.1, ev.2) :: U) by simp [utxoStep, hin]] at hk
        refine ih S ((ev.1, ev.2) :: U) hnd.2 ?_ ?_ k hk
        · intro k' hk'U
          rw [List.map_cons, List.mem_cons] at hk'U
          rcases hk'U with rfl | hk'U
          · intro hk'ref
            exact hin (hS ev.1 hk'ref (List.mem_cons_self _ _))
          · exact hU k' hk'U
        · intro k' hk'ref hk'rest
          exact hS k' hk'ref (List.mem_cons_of_mem _ hk'rest)

/-! ## Claim C4 -/

/-- C4 counterexample: the claim promises the closure for every collection of
well-formed persisted blocks, but pass B removes a matched key from `S`, so
when the same `(txid, out_index)` occurs twice among the scanned outputs (the
same transaction appearing twice in the window) the second occurrence is
inserted into the UTXO map even though an input references it.  With
`tx_A` (one output) appearing twice and `tx_B` spending `(txid_A, 0)`, the key
is both in the resulting UTXO map and referenced by an input. -/
theorem c4_utxo_closure_counterexample :
    (⟨⟨List.replicate 64 '0'⟩, 0⟩ : TrxKey)
        ∈ (obtain_utxos_from (fun _ => ⟨List.replicate 64 '0'⟩)
            (obtain_inputs
              [⟨⟨0, [], [], 0, 0, 0⟩, CompactSize.new 3,
                [⟨1, CompactSize.new 0, [], CompactSize.new 1,
                    [⟨0, CompactSize.new 0, []⟩], 0⟩,
                  ⟨1, CompactSize.new 1,
                    [⟨⟨List.replicate 32 0, 0⟩, CompactSize.new 0, [], 0⟩],
                    CompactSize.new 0, [], 0⟩,
                  ⟨1, CompactSize.new 0, [], CompactSize.new 1,
                    [⟨0, CompactSize.new 0, []⟩], 0⟩]⟩])
            [⟨⟨0, [], [], 0, 0, 0⟩, CompactSize.new 3,
              [⟨1, CompactSize.new 0, [], CompactSize.new 1,
                  [⟨0, CompactSize.new 0, []⟩], 0⟩,
                ⟨1, CompactSize.new 1,
                  [⟨⟨List.replicate 32 0, 0⟩, CompactSize.new 0, [], 0⟩],
                  CompactSize.new 0, [], 0⟩,
                ⟨1, CompactSize.new 0, [], CompactSize.new 1,
                  [⟨0, CompactSize.new 0, []⟩], 0⟩]⟩]).map Prod.fst
      ∧ (⟨⟨List.replicate 64 '0'⟩, 0⟩ : TrxKey)
        ∈ obtain_inputs
            [⟨⟨0, [], [], 0, 0, 0⟩, CompactSize.new 3,
              [⟨1, CompactSize.new 0, [], CompactSize.new 1,
                  [⟨0, CompactSize.new 0, []⟩], 0⟩,
                ⟨1, CompactSize.new 1,
                  [⟨⟨List.replicate 32 0, 0⟩, CompactSize.new 0, [], 0⟩],
                  CompactSize.new 0, [], 0⟩,
                ⟨1, CompactSize.new 0, [], CompactSize.new 1,
                  [⟨0, CompactSize.new 0, []⟩], 0⟩]⟩] := by
  constructor
  · decide
  · decide

/-- C4 (amended): provided each `(txid, out_index)` pair occurs at most once
among the outputs of the scanned collection (as is the case when no
transaction appears twice in the observed window), no key present in the UTXO
map produced by the two-pass scan is referenced as `(prev_txid, prev_index)`
by any input of any scanned block. -/
theorem c4_utxo_closure (obtain_tx_id : List Nat → String) (blocks : List SerializedBlock)
    (hnodup : ((outputEvents obtain_tx_id blocks).map Prod.fst).Nodup) :
    ∀ k ∈ (obtain_utxos_from obtain_tx_id (obtain_inputs blocks) blocks).map Prod.fst,
      k ∉ obtain_inputs blocks := by
  intro k hk
  exact utxoFold_closure (obtain_inputs blocks) (outputEvents obtain_tx_id blocks)
    (obtain_inputs blocks) [] hnodup (by simp) (fun k' h _ => h) k hk

/-- Witness for C4 at a one-block, one-transaction collection. -/
theorem c4_utxo_closure_witness :
    ((outputEvents (fun _ => ⟨List.replicate 64 '0'⟩)
        [⟨⟨0, [], [], 0, 0, 0⟩, CompactSize.new 1,
          [⟨1, CompactSize.new 0, [], CompactSize.new 1,
            [⟨0, CompactSize.new 0, []⟩], 0⟩]⟩]).map Prod.fst).Nodup
      ∧ ∀ k ∈ (obtain_utxos_from (fun _ => ⟨List.replicate 64 '0'⟩)
            (obtain_inputs
              [⟨⟨0, [], [], 0, 0, 0⟩, CompactSize.new 1,
                [⟨1, CompactSize.new 0, [], CompactSize.new 1,
                  [⟨0, CompactSize.new 0, []⟩], 0⟩]⟩])
            [⟨⟨0, [], [], 0, 0, 0⟩, CompactSize.new 1,
              [⟨1, CompactSize.new 0, [], CompactSize.new 1,
                [⟨0, CompactSize.new 0, []⟩], 0⟩]⟩]).map Prod.fst,
          k ∉ obtain_inputs
            [⟨⟨0, [], [], 0, 0, 0⟩, CompactSize.new 1,
              [⟨1, CompactSize.new 0, [], CompactSize.new 1,
                [⟨0, CompactSize.new 0, []⟩], 0⟩]⟩] :=
  ⟨by decide,
    c4_utxo_closure (fun _ => ⟨List.replicate 64 '0'⟩)
      [⟨⟨0, [], [], 0, 0, 0⟩, CompactSize.new 1,
        [⟨1, CompactSize.new 0, [], CompactSize.new 1,
          [⟨0, CompactSize.new 0, []⟩], 0⟩]⟩] (by decide)⟩

/-! ## Theorems: merkle tree and merkle proof -/

theorem evenOut_length_even (l : List (List Nat)) : (evenOut l).length % 2 = 0 := by
  rw [evenOut]
  split_ifs with h
  · simp only [List.length_append, List.length_cons, List.length_nil]
    omega
  · exact not_not.mp h

theorem le_evenOut_length (l : List (List Nat)) : l.length ≤ (evenOut l).length := by
  rw [evenOut]
  split_ifs <;> simp

theorem evenOut_length_le (l : List (List Nat)) : (evenOut l).length ≤ l.length + 1 := by
  rw [evenOut]
  split_ifs <;> simp

theorem evenOut_getD (l : List (List Nat)) (k : Nat) (d : List Nat) (h : k < l.length) :
    (evenOut l).getD k d = l.getD k d := by
  rw [evenOut]
  split_ifs with he
  · exact List.getD_append _ _ _ _ h
  · rfl

theorem mem_evenOut (l : List (List Nat)) (a : List Nat) (h : a ∈ l) : a ∈ evenOut l := by
  rw [evenOut]
  split_ifs with he
  · exact List.mem_append_left _ h
  · exact h

theorem hashPairs_length (sha256d : List Nat → List Nat) (l : List (List Nat)) :
    (hashPairs sha256d l).length = l.length / 2 := by
  simp [hashPairs]

theorem hashPairs_getD (sha256d : List Nat → List Nat) (l : List (List Nat)) (j : Nat)
    (h : j < l.length / 2) :
    (hashPairs sha256d l).getD j []
      = sha256d (l.getD (2 * j) [] ++ l.getD (2 * j + 1) []) := by
  have hlt : j < (hashPairs sha256d l).length := by rw [hashPairs_length]; exact h
  rw [List.getD_eq_getElem _ _ hlt]
  simp [hashPairs]

theorem buildLevels_one (sha256d : List Nat → List Nat) (l : List (List Nat))
    (h : l.length = 1) : buildLevels sha256d l = [l] := by
  rw [buildLevels, dif_pos h]

theorem buildLevels_cons (sha256d : List Nat → List Nat) (l : List (List Nat))
    (h : 2 ≤ l.length) :
    buildLevels sha256d l
      = evenOut l :: buildLevels sha256d (hashPairs sha256d (evenOut l)) := by
  conv_lhs => rw [buildLevels]
  rw [dif_neg (by omega), dif_neg (by omega)]

theorem buildLevels_ne_nil (sha256d : List Nat → List Nat) (l : List (List Nat)) :
    buildLevels sha256d l ≠ [] := by
  rw [buildLevels]
  split_ifs <;> simp

theorem rootHash_one (sha256d : List Nat → List Nat) (l : List (List Nat)) (h : l.length = 1) :
    generar_merkle_tree_root_hash sha256d l = l.getD 0 [] := by
  rw [generar_merkle_tree_root_hash, dif_pos h]

theorem rootHash_step (sha256d : List Nat → List Nat) (l : List (List Nat)) (h : 2 ≤ l.length) :
    generar_merkle_tree_root_hash sha256d l
      = generar_merkle_tree_root_hash sha256d (hashPairs sha256d (evenOut l)) := by
  conv_lhs => rw [generar_merkle_tree_root_hash]
  rw [dif_neg (by omega), dif_neg (by omega)]

theorem posicion_spec (tx : List Nat) :
    ∀ (l : List (List Nat)) (i : Nat), posicion tx l = some i
      → i < l.length ∧ l.getD i [] = tx
  | [], i, h => by simp [posicion] at h
  | t :: rest, i, h => by
      rw [posicion] at h
      split_ifs at h with ht
      · rw [Option.some_inj] at h
        subst h
        exact ⟨by simp, ht⟩
      · cases hm : posicion tx rest with
        | none => rw [hm] at h; simp at h
        | some j =>
            rw [hm] at h
            simp only [Option.map_some', Option.some_inj] at h
            subst h
            obtain ⟨hj, hgd⟩ := posicion_spec tx rest j hm
            exact ⟨by simp; omega, by rw [List.getD_cons_succ]; exact hgd⟩

theorem posicion_isSome (tx : List Nat) :
    ∀ (l : List (List Nat)), tx ∈ l → ∃ i, posicion tx l = some i
  | t :: rest, hmem => by
      by_cases ht : t = tx
      · exact ⟨0, by rw [posicion, if_pos ht]⟩
      · have hrest : tx ∈ rest := by
          rcases List.mem_cons.mp hmem with h | h
          · exact absurd h.symm ht
          · exact h
        obtain ⟨i, hi⟩ := posicion_isSome tx rest hrest
        exact ⟨i + 1, by rw [posicion, if_neg ht, hi, Option.map_some']⟩

theorem buildLevels_head_getD (sha256d : List Nat → List Nat) (m : List (List Nat)) (idx : Nat)
    (h : idx < m.length) :
    idx < ((buildLevels sha256d m).getD 0 []).length
      ∧ ((buildLevels sha256d m).getD 0 []).getD idx [] = m.getD idx [] := by
  rcases Nat.lt_or_ge m.length 2 with hlt | hge
  · have h1 : m.length = 1 := by omega
    rw [buildLevels_one sha256d m h1]
    exact ⟨h, rfl⟩
  · rw [buildLevels_cons sha256d m hge]
    simp only [List.getD_cons_zero]
    exact ⟨lt_of_lt_of_le h (le_evenOut_length m), evenOut_getD m idx [] h⟩

theorem reduce_proofLoop (sha256d : List Nat → List Nat) :
    ∀ (n : Nat) (l : List (List Nat)), l.length ≤ n → 1 ≤ l.length →
    ∀ idx, idx < ((buildLevels sha256d l).getD 0 []).length →
    reduceFrom sha256d (((buildLevels sha256d l).getD 0 []).getD idx [])
        (proofLoop (buildLevels sha256d l).dropLast idx)
      = generar_merkle_tree_root_hash sha256d l := by
  intro n
  induction n using Nat.strong_induction_on with
  | _ n ih =>
      intro l hln h1 idx hidx
      rcases Nat.lt_or_ge l.length 2 with hlt | hge
      · have hl1 : l.length = 1 := by omega
        rw [buildLevels_one sha256d l hl1] at hidx ⊢
        simp only [List.getD_cons_zero] at hidx ⊢
        rw [List.dropLast_single, proofLoop, reduceFrom, rootHash_one sha256d l hl1]
        have hidx0 : idx = 0 := by omega
        rw [hidx0]
      · have hcons := buildLevels_cons sha256d l hge
        have hLlen : 2 ≤ (evenOut l).length := le_trans hge (le_evenOut_length l)
        have hLeven : (evenOut l).length % 2 = 0 := evenOut_length_even l
        rw [hcons] at hidx ⊢
        simp only [List.getD_cons_zero] at hidx ⊢
        have hBne := buildLevels_ne_nil sha256d (hashPairs sha256d (evenOut l))
        obtain ⟨b, bs, hB⟩ := List.exists_cons_of_ne_nil hBne
        rw [hB, List.dropLast_cons₂, ← hB]
        have hhalf : idx / 2 < (hashPairs sha256d (evenOut l)).length := by
          rw [hashPairs_length]
          omega
        have hone : 1 ≤ (hashPairs sha256d (evenOut l)).length := by
          rw [hashPairs_length]
          omega
        obtain ⟨hhead_lt, hhead_eq⟩ :=
          buildLevels_head_getD sha256d (hashPairs sha256d (evenOut l)) (idx / 2) hhalf
        have hsz : (hashPairs sha256d (evenOut l)).length < n := by
          rw [hashPairs_length]
          have := evenOut_length_le l
          omega
        have hIH := ih (hashPairs sha256d (evenOut l)).length hsz
          (hashPairs sha256d (evenOut l)) le_rfl hone (idx / 2) hhead_lt
        rw [hhead_eq] at hIH
        rw [rootHash_step sha256d l hge, ← hIH]
        by_cases hpar : idx % 2 = 0
        · rw [proofLoop, if_pos hpar, reduceFrom, if_pos rfl]
          have hij : idx + 1 < (evenOut l).length := by omega
          have hidx2 : idx / 2 < (evenOut l).length / 2 := by omega
          rw [hashPairs_getD sha256d (evenOut l) (idx / 2) hidx2]
          have h2a : 2 * (idx / 2) = idx := by omega
          rw [h2a]
        · rw [proofLoop, if_neg hpar, reduceFrom, if_neg (by decide)]
          have hidx2 : idx / 2 < (evenOut l).length / 2 := by omega
          rw [hashPairs_getD sha256d (evenOut l) (idx / 2) hidx2]
          have h2a : 2 * (idx / 2) = idx - 1 := by omega
          rw [h2a, show idx - 1 + 1 = idx from by omega]

/-! ## Claim C8 -/

/-- C8: for every block whose header merkle root matches its transactions
(`proof_of_inclusion`) and every transaction id among the block's leaves,
reducing the merkle proof generated for that transaction — hashing the
concatenation of left and right operands at each step, as directed by the
proof's left/right tags — yields exactly the merkle root hash stored in the
block's header.  Quantified over the SHA-256d primitive. -/
theorem c8_merkle_proof_reduces_to_header_root (sha256d : List Nat → List Nat)
    (bloque : SerializedBlock) (transaccion : List Nat)
    (hmem : transaccion ∈ blockTxids sha256d bloque)
    (hincl : proof_of_inclusion sha256d bloque = true) :
    generar_merkle_root_con_merkle_proof sha256d (merkle_proof sha256d transaccion bloque)
      = bloque.block_header.merkle_root_hash := by
  have hroot : generar_merkle_tree_root_hash sha256d (blockTxids sha256d bloque)
      = bloque.block_header.merkle_root_hash := of_decide_eq_true hincl
  have hlen1 : 1 ≤ (blockTxids sha256d bloque).length := List.length_pos_of_mem hmem
  have hmem0 : transaccion ∈ (buildLevels sha256d (blockTxids sha256d bloque)).getD 0 [] := by
    rcases Nat.lt_or_ge (blockTxids sha256d bloque).length 2 with hlt | hge
    · rw [buildLevels_one sha256d _ (by omega)]
      exact hmem
    · rw [buildLevels_cons sha256d _ hge]
      exact mem_evenOut _ _ hmem
  obtain ⟨i, hi⟩ := posicion_isSome transaccion _ hmem0
  obtain ⟨hilt, higd⟩ := posicion_spec transaccion _ i hi
  simp only [merkle_proof, generar_merkle_tree]
  rw [if_neg (fun hc => buildLevels_ne_nil sha256d (blockTxids sha256d bloque)
    (List.length_eq_zero.mp hc))]
  rw [hi]
  rw [generar_merkle_root_con_merkle_proof, ← higd]
  rw [reduce_proofLoop sha256d (blockTxids sha256d bloque).length
    (blockTxids sha256d bloque) le_rfl hlen1 i hilt]
  exact hroot

/-- Witness for C8 at a concrete single-transaction block whose header root
is the (constant) digest of its only transaction. -/
theorem c8_merkle_proof_reduces_to_header_root_witness :
    List.replicate 32 1
        ∈ blockTxids (fun _ => List.replicate 32 1)
          ⟨⟨0, [], List.replicate 32 1, 0, 0, 0⟩, CompactSize.new 1,
            [⟨1, CompactSize.new 0, [], CompactSize.new 0, [], 0⟩]⟩
      ∧ proof_of_inclusion (fun _ => List.replicate 32 1)
          ⟨⟨0, [], List.replicate 32 1, 0, 0, 0⟩, CompactSize.new 1,
            [⟨1, CompactSize.new 0, [], CompactSize.new 0, [], 0⟩]⟩ = true
      ∧ generar_merkle_root_con_merkle_proof (fun _ => List.replicate 32 1)
          (merkle_proof (fun _ => List.replicate 32 1) (List.replicate 32 1)
            ⟨⟨0, [], List.replicate 32 1, 0, 0, 0⟩, CompactSize.new 1,
              [⟨1, CompactSize.new 0, [], CompactSize.new 0, [], 0⟩]⟩)
        = (⟨⟨0, [], List.replicate 32 1, 0, 0, 0⟩, CompactSize.new 1,
            [⟨1, CompactSize.new 0, [], CompactSize.new 0, [], 0⟩]⟩ :
              SerializedBlock).block_header.merkle_root_hash := by
  have hmem : List.replicate 32 1
      ∈ blockTxids (fun _ => List.replicate 32 1)
        ⟨⟨0, [], List.replicate 32 1, 0, 0, 0⟩, CompactSize.new 1,
          [⟨1, CompactSize.new 0, [], CompactSize.new 0, [], 0⟩]⟩ := by decide
  have htx : blockTxids (fun _ => List.replicate 32 1)
      ⟨⟨0, [], List.replicate 32 1, 0, 0, 0⟩, CompactSize.new 1,
        [⟨1, CompactSize.new 0, [], CompactSize.new 0, [], 0⟩]⟩
      = [List.replicate 32 1] := by decide
  have hincl : proof_of_inclusion (fun _ => List.replicate 32 1)
      ⟨⟨0, [], List.replicate 32 1, 0, 0, 0⟩, CompactSize.new 1,
        [⟨1, CompactSize.new 0, [], CompactSize.new 0, [], 0⟩]⟩ = true := by
    rw [proof_of_inclusion, htx, rootHash_one _ _ (by decide)]
    decide
  exact ⟨hmem, hincl,
    c8_merkle_proof_reduces_to_header_root (fun _ => List.replicate 32 1)
      ⟨⟨0, [], List.replicate 32 1, 0, 0, 0⟩, CompactSize.new 1,
        [⟨1, CompactSize.new 0, [], CompactSize.new 0, [], 0⟩]⟩
      (List.replicate 32 1) hmem hincl⟩

/-! ## Theorems: the block parser -/

theorem slice_bounds (v : List Nat) (a b : Nat) (s : List Nat) (h : slice v a b = some s) :
    a ≤ b ∧ b ≤ v.length := by
  rw [slice] at h
  split_ifs at h with hc
  exact hc

theorem slice_all (v : List Nat) (a b : Nat) (hab : a ≤ b) (hb : b ≤ v.length) :
    slice v a b = some ((v.take b).drop a) := by
  rw [slice, if_pos ⟨hab, hb⟩]

theorem Txn.from_bytes_le (raw : List Nat) (index : Nat) (t : Txn) (i : Nat)
    (h : Txn.from_bytes raw index = .ok (t, i)) : i ≤ raw.length := by
  rw [Txn.from_bytes] at h
  repeat' split at h
  any_goals exact PRes.noConfusion h
  rename_i lb heq
  injection h with hpair
  have hi := congrArg Prod.snd hpair
  simp only at hi
  have hb := slice_bounds _ _ _ _ heq
  omega

theorem parseTxns_le (raw : List Nat) :
    ∀ (count start : Nat) (txns : List Txn) (i : Nat),
      parseTxns raw count start = .ok (txns, i) → i = start ∨ i ≤ raw.length
  | 0, start, txns, i, h => by
      rw [parseTxns] at h
      injection h with hpair
      have hi := congrArg Prod.snd hpair
      simp only at hi
      exact Or.inl hi.symm
  | count + 1, start, txns, i, h => by
      rw [parseTxns] at h
      split at h
      · exact PRes.noConfusion h
      · exact PRes.noConfusion h
      · rename_i txn index' heq
        split at h
        · exact PRes.noConfusion h
        · exact PRes.noConfusion h
        · rename_i rest indexf heq2
          injection h with hpair
          have hi := congrArg Prod.snd hpair
          simp only at hi
          subst hi
          have hle := Txn.from_bytes_le raw start txn index' heq
          rcases parseTxns_le raw count index' rest indexf heq2 with h1 | h1
          · omega
          · exact Or.inr h1

theorem parse_window10 (w : List Nat) (h : w.length = 10) :
    ∃ cs n, CompactSize.parse_from_byte_array w = some (cs, n) ∧ n ≤ 9 := by
  obtain ⟨b, rest, rfl⟩ : ∃ b rest, w = b :: rest := by
    match w, h with
    | b :: rest, _ => exact ⟨b, rest, rfl⟩
  by_cases h1 : b = 0xfd
  · exact ⟨CompactSize.new (CompactSize.parse_to_u64 3 (b :: rest)), 3,
      by simp [CompactSize.parse_from_byte_array, h1, h]; simp at h; omega, by omega⟩
  · by_cases h2 : b = 0xfe
    · exact ⟨CompactSize.new (CompactSize.parse_to_u64 5 (b :: rest)), 5,
        by simp [CompactSize.parse_from_byte_array, h1, h2, h]; simp at h; omega, by omega⟩
    · by_cases h3 : b = 0xff
      · exact ⟨CompactSize.new (CompactSize.parse_to_u64 9 (b :: rest)), 9,
          by simp [CompactSize.parse_from_byte_array, h1, h2, h3, h]; simp at h; omega,
        by omega⟩
      · exact ⟨CompactSize.new (CompactSize.parse_to_u64 1 (b :: rest)), 1,
          by simp [CompactSize.parse_from_byte_array, h1, h2, h3, h], by omega⟩

/-! ## Claim C3 -/

/-- C3 counterexample: the claim states that `SerializedBlock::from_bytes`
succeeds exactly when the declared transactions consume the input up to its
final byte.  The 81-byte input `header ++ [0x00]` (an empty block, count 0,
consumed exactly) satisfies that description, yet the parser panics on the
unconditional 10-byte CompactSize window `block_bytes[80..90]` instead of
succeeding. -/
theorem c3_from_bytes_counterexample :
    SerializedBlock.from_bytes (List.replicate 80 0 ++ [0]) = .panic
      ∧ CompactSize.parse_from_byte_array ((List.replicate 80 0 ++ [0] : List Nat).drop 80)
          = some (CompactSize.new 0, 1)
      ∧ parseTxns (List.replicate 80 0 ++ [0]) (CompactSize.new 0).value (80 + 1)
          = .ok ([], (List.replicate 80 0 ++ [0] : List Nat).length) := by
  refine ⟨?_, ?_, ?_⟩
  · decide
  · decide
  · decide

/-- C3 (amended): `SerializedBlock::from_bytes` succeeds iff the input has at
least 90 bytes (the parser unconditionally reads `block_bytes[80..90]` for the
transaction count) and parsing the declared number of transactions consumes
the input exactly up to its final byte; when the transactions stop short of
the final byte the result is the block-parse error `ErrorAlParsearBloque`;
transaction-level errors propagate unchanged; and a parse that over-runs the
input (or an input shorter than 90 bytes) is an out-of-bounds panic, not the
block-parse error. -/
theorem c3_from_bytes_characterisation (block_bytes : List Nat) :
    (block_bytes.length < 90 → SerializedBlock.from_bytes block_bytes = .panic)
    ∧ (90 ≤ block_bytes.length →
        ∃ cnt cw, CompactSize.parse_from_byte_array ((block_bytes.take 90).drop 80)
            = some (cnt, cw)
          ∧ ((∃ b, SerializedBlock.from_bytes block_bytes = .ok b)
              ↔ ∃ txns, parseTxns block_bytes cnt.value (80 + cw)
                  = .ok (txns, block_bytes.length))
          ∧ (∀ txns i, parseTxns block_bytes cnt.value (80 + cw) = .ok (txns, i)
              → i < block_bytes.length
              → SerializedBlock.from_bytes block_bytes = .rerr .errorAlParsearBloque)
          ∧ (∀ txns, parseTxns block_bytes cnt.value (80 + cw)
                = .ok (txns, block_bytes.length)
              → SerializedBlock.from_bytes block_bytes
                  = .ok ⟨BlockHeader.from_bytes ((block_bytes.take 80).drop 0), cnt, txns⟩)
          ∧ (∀ e, parseTxns block_bytes cnt.value (80 + cw) = .rerr e
              → SerializedBlock.from_bytes block_bytes = .rerr e)
          ∧ (parseTxns block_bytes cnt.value (80 + cw) = .panic
              → SerializedBlock.from_bytes block_bytes = .panic)) := by
  constructor
  · intro hshort
    rw [SerializedBlock.from_bytes]
    rcases Nat.lt_or_ge block_bytes.length 80 with h80 | h80
    · rw [show slice block_bytes 0 80 = none from by rw [slice]; rw [if_neg (by omega)]]
    · rw [slice_all block_bytes 0 80 (by omega) (by omega)]
      rw [show slice block_bytes 80 90 = none from by rw [slice]; rw [if_neg (by omega)]]
  · intro hlen
    have hs1 := slice_all block_bytes 0 80 (by omega) (by omega)
    have hs2 := slice_all block_bytes 80 90 (by omega) (by omega)
    have hwlen : ((block_bytes.take 90).drop 80).length = 10 := by
      simp only [List.length_drop, List.length_take]
      omega
    obtain ⟨cnt, cw, hparse, hcw⟩ := parse_window10 _ hwlen
    have hsucc : ∀ txns, parseTxns block_bytes cnt.value (80 + cw)
        = .ok (txns, block_bytes.length)
        → SerializedBlock.from_bytes block_bytes
            = .ok ⟨BlockHeader.from_bytes ((block_bytes.take 80).drop 0), cnt, txns⟩ := by
      intro txns hp
      rw [SerializedBlock.from_bytes]
      simp only [hs1, hs2, hparse, hp]
      rw [if_neg (by omega), if_neg (by omega)]
    have hleft : ∀ txns i, parseTxns block_bytes cnt.value (80 + cw) = .ok (txns, i)
        → i < block_bytes.length
        → SerializedBlock.from_bytes block_bytes = .rerr .errorAlParsearBloque := by
      intro txns i hp hlt
      rw [SerializedBlock.from_bytes]
      simp only [hs1, hs2, hparse, hp]
      rw [if_neg (by omega), if_pos (by omega)]
    refine ⟨cnt, cw, hparse, ?_, hleft, hsucc, ?_, ?_⟩
    · constructor
      · rintro ⟨b, hb⟩
        cases hp : parseTxns block_bytes cnt.value (80 + cw) with
        | panic =>
            rw [SerializedBlock.from_bytes] at hb
            simp only [hs1, hs2, hparse, hp] at hb
            exact PRes.noConfusion hb
        | rerr e =>
            rw [SerializedBlock.from_bytes] at hb
            simp only [hs1, hs2, hparse, hp] at hb
            exact PRes.noConfusion hb
        | ok p =>
            obtain ⟨txns, i⟩ := p
            have hile : i ≤ block_bytes.length := by
              rcases parseTxns_le block_bytes cnt.value (80 + cw) txns i hp with h1 | h1
              · omega
              · exact h1
            rcases Nat.lt_or_ge i block_bytes.length with hlt | hge
            · rw [hleft txns i hp hlt] at hb
              exact PRes.noConfusion hb
            · have : i = block_bytes.length := by omega
              subst this
              exact ⟨txns, rfl⟩
      · rintro ⟨txns, hp⟩
        exact ⟨_, hsucc txns hp⟩
    · intro e hp
      rw [SerializedBlock.from_bytes]
      simp only [hs1, hs2, hparse, hp]
    · intro hp
      rw [SerializedBlock.from_bytes]
      simp only [hs1, hs2, hparse, hp]

set_option maxRecDepth 8000 in
/-- Witness for C3 at a concrete 147-byte block (one transaction with one
input and one 6-byte-script output) that parses successfully and exactly. -/
theorem c3_from_bytes_characterisation_witness :
    90 ≤ (List.replicate 80 0 ++ [1] ++ [1, 0, 0, 0] ++ [1] ++ List.replicate 36 0 ++ [0]
        ++ [0, 0, 0, 0] ++ [1] ++ List.replicate 8 0 ++ [6] ++ List.replicate 6 0
        ++ [0, 0, 0, 0] : List Nat).length
      ∧ (∃ cnt cw,
          CompactSize.parse_from_byte_array
              (((List.replicate 80 0 ++ [1] ++ [1, 0, 0, 0] ++ [1] ++ List.replicate 36 0
                ++ [0] ++ [0, 0, 0, 0] ++ [1] ++ List.replicate 8 0 ++ [6]
                ++ List.replicate 6 0 ++ [0, 0, 0, 0] : List Nat).take 90).drop 80)
            = some (cnt, cw)
          ∧ ((∃ b, SerializedBlock.from_bytes
                (List.replicate 80 0 ++ [1] ++ [1, 0, 0, 0] ++ [1] ++ List.replicate 36 0
                  ++ [0] ++ [0, 0, 0, 0] ++ [1] ++ List.replicate 8 0 ++ [6]
                  ++ List.replicate 6 0 ++ [0, 0, 0, 0]) = .ok b)
              ↔ ∃ txns, parseTxns
                  (List.replicate 80 0 ++ [1] ++ [1, 0, 0, 0] ++ [1] ++ List.replicate 36 0
                    ++ [0] ++ [0, 0, 0, 0] ++ [1] ++ List.replicate 8 0 ++ [6]
                    ++ List.replicate 6 0 ++ [0, 0, 0, 0]) cnt.value (80 + cw)
                  = .ok (txns, (List.replicate 80 0 ++ [1] ++ [1, 0, 0, 0] ++ [1]
                      ++ List.replicate 36 0 ++ [0] ++ [0, 0, 0, 0] ++ [1]
                      ++ List.replicate 8 0 ++ [6] ++ List.replicate 6 0
                      ++ [0, 0, 0, 0] : List Nat).length))
          ∧ (∀ txns i, parseTxns
                (List.replicate 80 0 ++ [1] ++ [1, 0, 0, 0] ++ [1] ++ List.replicate 36 0
                  ++ [0] ++ [0, 0, 0, 0] ++ [1] ++ List.replicate 8 0 ++ [6]
                  ++ List.replicate 6 0 ++ [0, 0, 0, 0]) cnt.value (80 + cw) = .ok (txns, i)
              → i < (List.replicate 80 0 ++ [1] ++ [1, 0, 0, 0] ++ [1]
                  ++ List.replicate 36 0 ++ [0] ++ [0, 0, 0, 0] ++ [1]
                  ++ List.replicate 8 0 ++ [6] ++ List.replicate 6 0
                  ++ [0, 0, 0, 0] : List Nat).length
              → SerializedBlock.from_bytes
                  (List.replicate 80 0 ++ [1] ++ [1, 0, 0, 0] ++ [1] ++ List.replicate 36 0
                    ++ [0] ++ [0, 0, 0, 0] ++ [1] ++ List.replicate 8 0 ++ [6]
                    ++ List.replicate 6 0 ++ [0, 0, 0, 0])
                  = .rerr .errorAlParsearBloque)
          ∧ (∀ txns, parseTxns
                (List.replicate 80 0 ++ [1] ++ [1, 0, 0, 0] ++ [1] ++ List.replicate 36 0
                  ++ [0] ++ [0, 0, 0, 0] ++ [1] ++ List.replicate 8 0 ++ [6]
                  ++ List.replicate 6 0 ++ [0, 0, 0, 0]) cnt.value (80 + cw)
                = .ok (txns, (List.replicate 80 0 ++ [1] ++ [1, 0, 0, 0] ++ [1]
                    ++ List.replicate 36 0 ++ [0] ++ [0, 0, 0, 0] ++ [1]
                    ++ List.replicate 8 0 ++ [6] ++ List.replicate 6 0
                    ++ [0, 0, 0, 0] : List Nat).length)
              → SerializedBlock.from_bytes
                  (List.replicate 80 0 ++ [1] ++ [1, 0, 0, 0] ++ [1] ++ List.replicate 36 0
                    ++ [0] ++ [0, 0, 0, 0] ++ [1] ++ List.replicate 8 0 ++ [6]
                    ++ List.replicate 6 0 ++ [0, 0, 0, 0])
                  = .ok ⟨BlockHeader.from_bytes
                      (((List.replicate 80 0 ++ [1] ++ [1, 0, 0, 0] ++ [1]
                        ++ List.replicate 36 0 ++ [0] ++ [0, 0, 0, 0] ++ [1]
                        ++ List.replicate 8 0 ++ [6] ++ List.replicate 6 0
                        ++ [0, 0, 0, 0] : List Nat).take 80).drop 0), cnt, txns⟩)
          ∧ (∀ e, parseTxns
                (List.replicate 80 0 ++ [1] ++ [1, 0, 0, 0] ++ [1] ++ List.replicate 36 0
                  ++ [0] ++ [0, 0, 0, 0] ++ [1] ++ List.replicate 8 0 ++ [6]
                  ++ List.replicate 6 0 ++ [0, 0, 0, 0]) cnt.value (80 + cw) = .rerr e
              → SerializedBlock.from_bytes
                  (List.replicate 80 0 ++ [1] ++ [1, 0, 0, 0] ++ [1] ++ List.replicate 36 0
                    ++ [0] ++ [0, 0, 0, 0] ++ [1] ++ List.replicate 8 0 ++ [6]
                    ++ List.replicate 6 0 ++ [0, 0, 0, 0]) = .rerr e)
          ∧ (parseTxns
                (List.replicate 80 0 ++ [1] ++ [1, 0, 0, 0] ++ [1] ++ List.replicate 36 0
                  ++ [0] ++ [0, 0, 0, 0] ++ [1] ++ List.replicate 8 0 ++ [6]
                  ++ List.replicate 6 0 ++ [0, 0, 0, 0]) cnt.value (80 + cw) = .panic
              → SerializedBlock.from_bytes
                  (List.replicate 80 0 ++ [1] ++ [1, 0, 0, 0] ++ [1] ++ List.replicate 36 0
                    ++ [0] ++ [0, 0, 0, 0] ++ [1] ++ List.replicate 8 0 ++ [6]
                    ++ List.replicate 6 0 ++ [0, 0, 0, 0]) = .panic)) :=
  ⟨by decide,
    (c3_from_bytes_characterisation
      (List.replicate 80 0 ++ [1] ++ [1, 0, 0, 0] ++ [1] ++ List.replicate 36 0 ++ [0]
        ++ [0, 0, 0, 0] ++ [1] ++ List.replicate 8 0 ++ [6] ++ List.replicate 6 0
        ++ [0, 0, 0, 0])).2 (by decide)⟩

/-! ## Theorems: wallet transaction creation -/

theorem primeraUtxo_none (importe_taxado : ℚ) :
    ∀ (l : List (TrxKey × Txn)), primeraUtxoSuficiente importe_taxado l = none
      → ∀ kv ∈ l, amount_of_satoshis (kv.2.tx_out.getD kv.1.2 default) < importe_taxado
  | [], _, kv, hm => by simp at hm
  | (k, t) :: rest, h, kv, hm => by
      rw [primeraUtxoSuficiente] at h
      split_ifs at h with hc
      rcases List.mem_cons.mp hm with rfl | hm2
      · exact not_le.mp hc
      · exact primeraUtxo_none importe_taxado rest h kv hm2

theorem acumularUtxos_spec (importe_taxado : ℚ) (l : List (TrxKey × Txn)) :
    ∀ (acc : ℚ), acc < importe_taxado →
      (acumularUtxos importe_taxado acc l).1 <+: l
      ∧ (acumularUtxos importe_taxado acc l).2
          = acc + sumAmounts (acumularUtxos importe_taxado acc l).1
      ∧ (importe_taxado ≤ acc + sumAmounts (acumularUtxos importe_taxado acc l).1
          ∨ (acumularUtxos importe_taxado acc l).1 = l)
      ∧ (∀ p, p <+: (acumularUtxos importe_taxado acc l).1
          → p ≠ (acumularUtxos importe_taxado acc l).1
          → acc + sumAmounts p < importe_taxado) := by
  induction l with
  | nil =>
      intro acc hacc
      refine ⟨List.nil_prefix, by simp [acumularUtxos, sumAmounts], ?_, ?_⟩
      · exact Or.inr rfl
      · intro p hp hne
        rw [acumularUtxos] at hp hne
        exact absurd (List.prefix_nil.mp hp) hne
  | cons kv rest ih =>
      intro acc hacc
      obtain ⟨k, t⟩ := kv
      rw [acumularUtxos]
      by_cases hge : acc + amount_of_satoshis (t.tx_out.getD k.2 default) ≥ importe_taxado
      · simp only [if_pos hge]
        refine ⟨⟨rest, rfl⟩, ?_, Or.inl ?_, ?_⟩
        · simp only [sumAmounts, List.map_cons, List.map_nil, List.sum_cons, List.sum_nil]
          ring
        · simp only [sumAmounts, List.map_cons, List.map_nil, List.sum_cons, List.sum_nil]
          linarith
        intro p hp hne
        obtain ⟨s, hs⟩ := hp
        match p, hs with
        | [], _ => simpa [sumAmounts] using hacc
        | [q], hs =>
            simp only [List.cons_append, List.nil_append, List.cons.injEq] at hs
            obtain ⟨rfl, hs2⟩ := hs
            have : s = [] := by
              cases s with
              | nil => rfl
              | cons a as => exact absurd hs2 (by simp)
            subst this
            exact absurd rfl hne
      · simp only [if_neg hge]
        have hacc2 : acc + amount_of_satoshis (t.tx_out.getD k.2 default) < importe_taxado :=
          not_le.mp hge
        obtain ⟨hpre, hsum, hstop, hmin⟩ := ih _ hacc2
        refine ⟨?_, ?_, ?_, ?_⟩
        · obtain ⟨s, hs⟩ := hpre
          exact ⟨s, by rw [List.cons_append, hs]⟩
        · rw [hsum]
          simp [sumAmounts]
          ring
        · rcases hstop with h1 | h1
          · refine Or.inl ?_
            simp only [sumAmounts, List.map_cons, List.sum_cons]
            simp only [sumAmounts] at h1
            linarith
          · exact Or.inr (by rw [h1])
        · intro p hp hne
          match p, hp with
          | [], _ => simpa [sumAmounts] using hacc
          | q :: p2, hp =>
              obtain ⟨s, hs⟩ := hp
              simp only [List.cons_append, List.cons.injEq] at hs
              obtain ⟨rfl, hs2⟩ := hs
              have hp2 : p2 <+: (acumularUtxos importe_taxado
                  (acc + amount_of_satoshis (t.tx_out.getD k.2 default)) rest).1 := ⟨s, hs2⟩
              have hne2 : p2 ≠ (acumularUtxos importe_taxado
                  (acc + amount_of_satoshis (t.tx_out.getD k.2 default)) rest).1 := by
                intro he
                exact hne (by rw [he])
              have := hmin p2 hp2 hne2
              simp only [sumAmounts, List.map_cons, List.sum_cons] at this ⊢
              linarith

theorem firmarAux_ok_shape (mkSig : Txn → Nat → Except RustifyError (List Nat)) :
    ∀ (idxs : List Nat) (t t2 : Txn), firmarAux mkSig t idxs = .ok t2
      → t2.tx_out = t.tx_out ∧ t2.tx_in.length = t.tx_in.length
  | [], t, t2, h => by
      rw [firmarAux] at h
      injection h with h
      subst h
      exact ⟨rfl, rfl⟩
  | i :: rest, t, t2, h => by
      rw [firmarAux] at h
      cases hs : mkSig t i with
      | error e => rw [hs] at h; exact Except.noConfusion h
      | ok sig =>
          rw [hs] at h
          obtain ⟨ho, hl⟩ := firmarAux_ok_shape mkSig rest _ t2 h
          exact ⟨ho, by rw [hl]; simp⟩

theorem firmarAux_ne_insufficient (mkSig : Txn → Nat → Except RustifyError (List Nat))
    (hsig : ∀ t i, mkSig t i ≠ .error .walletSinFondosSuficientes) :
    ∀ (idxs : List Nat) (t : Txn),
      firmarAux mkSig t idxs ≠ .error .walletSinFondosSuficientes
  | [], t, h => by rw [firmarAux] at h; exact Except.noConfusion h
  | i :: rest, t, h => by
      rw [firmarAux] at h
      cases hs : mkSig t i with
      | error e =>
          rw [hs] at h
          injection h with he
          rw [he] at hs
          exact hsig t i hs
      | ok sig =>
          rw [hs] at h
          exact firmarAux_ne_insufficient mkSig hsig rest _ h

/-! ## Claim C5 -/

/-- C5: transaction creation fails with the insufficient-funds error iff the
account balance is below the taxed amount `importe + fee`; otherwise, when a
single owned UTXO covers the taxed amount exactly one input is selected, else
UTXOs are accumulated in iteration order until the total reaches the taxed
amount (or the UTXOs run out); the change is the accumulated value minus the
taxed amount, and the built transaction carries a second output back to the
sender exactly when the change is strictly positive.  Monetary amounts are
modelled in ℚ; the base58, clock and secp256k1 primitives are the abstract
`pkScript`, `now` and `mkSig` parameters, with `mkSig` never producing the
insufficient-funds error (as in the source, whose signing errors are parse
and key-conversion errors). -/
theorem c5_generar_txn_spec (pkScript : Account → List Nat) (now : Nat)
    (mkSig : Txn → Nat → Except RustifyError (List Nat))
    (emisor receptor : Account) (importe_btc fee_btc : ℚ)
    (hsig : ∀ t i, mkSig t i ≠ .error .walletSinFondosSuficientes)
    (hpos : 0 < importe_btc + fee_btc) :
    (generar_txn pkScript now mkSig emisor receptor importe_btc fee_btc
        = .error .walletSinFondosSuficientes
      ↔ emisor.balance < importe_btc + fee_btc)
    ∧ ∀ sel vuelto,
        calcular_inputs_outputs (importe_btc + fee_btc) emisor.utxo_transaction
          = (sel, vuelto) →
        (vuelto = sumAmounts sel - (importe_btc + fee_btc))
        ∧ (∀ kv, primeraUtxoSuficiente (importe_btc + fee_btc) emisor.utxo_transaction
            = some kv → sel = [kv])
        ∧ (primeraUtxoSuficiente (importe_btc + fee_btc) emisor.utxo_transaction = none →
            sel <+: emisor.utxo_transaction
            ∧ (importe_btc + fee_btc ≤ sumAmounts sel ∨ sel = emisor.utxo_transaction)
            ∧ ∀ p, p <+: sel → p ≠ sel → sumAmounts p < importe_btc + fee_btc)
        ∧ ∀ t, generar_txn pkScript now mkSig emisor receptor importe_btc fee_btc = .ok t →
            t.tx_out = (if vuelto > 0
              then [TxOut.new pkScript receptor importe_btc, TxOut.new pkScript emisor vuelto]
              else [TxOut.new pkScript receptor importe_btc])
            ∧ t.tx_in.length = sel.length := by
  constructor
  · constructor
    · intro h
      by_contra hlt
      rw [generar_txn] at h
      simp only [if_pos (not_lt.mp hlt)] at h
      exact firmarAux_ne_insufficient mkSig hsig _ _ h
    · intro hlt
      rw [generar_txn]
      simp only [if_neg (not_le.mpr hlt)]
  · intro sel vuelto hcalc
    have hfirst : ∀ kv, primeraUtxoSuficiente (importe_btc + fee_btc) emisor.utxo_transaction
        = some kv → sel = [kv] := by
      intro kv hkv
      obtain ⟨k, t⟩ := kv
      rw [calcular_inputs_outputs] at hcalc
      simp only [hkv] at hcalc
      injection hcalc with hs hv
      exact hs.symm
    have hvuelto : vuelto = sumAmounts sel - (importe_btc + fee_btc) := by
      cases hp : primeraUtxoSuficiente (importe_btc + fee_btc) emisor.utxo_transaction with
      | some kv =>
          obtain ⟨k, t⟩ := kv
          rw [calcular_inputs_outputs] at hcalc
          simp only [hp] at hcalc
          injection hcalc with hs hv
          subst hs
          subst hv
          simp [sumAmounts]
      | none =>
          rw [calcular_inputs_outputs] at hcalc
          simp only [hp] at hcalc
          injection hcalc with hs hv
          subst hs
          subst hv
          obtain ⟨_, hsum, _, _⟩ :=
            acumularUtxos_spec (importe_btc + fee_btc) emisor.utxo_transaction 0 hpos
          rw [hsum]
          ring
    refine ⟨hvuelto, hfirst, ?_, ?_⟩
    · intro hnone
      rw [calcular_inputs_outputs] at hcalc
      simp only [hnone] at hcalc
      injection hcalc with hs hv
      subst hs
      obtain ⟨hpre, hsum, hstop, hmin⟩ :=
        acumularUtxos_spec (importe_btc + fee_btc) emisor.utxo_transaction 0 hpos
      refine ⟨hpre, ?_, ?_⟩
      · rcases hstop with h1 | h1
        · exact Or.inl (by linarith)
        · exact Or.inr h1
      · intro p hp hne
        have := hmin p hp hne
        linarith
    · intro t hok
      by_cases hbal : emisor.balance ≥ importe_btc + fee_btc
      · rw [generar_txn] at hok
        simp only [if_pos hbal, hcalc] at hok
        obtain ⟨ho, hl⟩ := firmarAux_ok_shape mkSig _ _ t hok
        constructor
        · rw [ho]
          by_cases hv : vuelto > 0 <;> simp [Txn.new, hv]
        · rw [hl]
          simp [Txn.new]
      · rw [generar_txn] at hok
        simp only [if_neg hbal] at hok
        exact Except.noConfusion hok

/-- Witness for C5: a sender with a single covering UTXO, a unit payment and
a unit fee; the theorem's first component is instantiated at it. -/
theorem c5_generar_txn_spec_witness :
    generar_txn (fun _ => []) 0 (fun _ _ => .ok [])
        ⟨"a", "b", 2, 0, [(("k", 0),
          ⟨1, CompactSize.new 0, [], CompactSize.new 1,
            [⟨300000000, CompactSize.new 0, []⟩], 0⟩)], [], [], [], []⟩
        ⟨"c", "d", 0, 0, [], [], [], [], []⟩ 1 1
        = .error .walletSinFondosSuficientes
      ↔ (⟨"a", "b", 2, 0, [(("k", 0),
          ⟨1, CompactSize.new 0, [], CompactSize.new 1,
            [⟨300000000, CompactSize.new 0, []⟩], 0⟩)], [], [], [], []⟩ :
              Account).balance < 1 + 1 :=
  (c5_generar_txn_spec (fun _ => []) 0 (fun _ _ => .ok [])
    ⟨"a", "b", 2, 0, [(("k", 0),
      ⟨1, CompactSize.new 0, [], CompactSize.new 1,
        [⟨300000000, CompactSize.new 0, []⟩], 0⟩)], [], [], [], []⟩
    ⟨"c", "d", 0, 0, [], [], [], [], []⟩ 1 1
    (fun t i h => Except.noConfusion h) (by norm_num)).1

/-! ## Theorems: confirming a received block -/

theorem update_sending_fst_sublist (f g : List Nat → String) (txid : String)
    (bloque : SerializedBlock) :
    ∀ l : List TxnInfo, List.Sublist (update_sending_txn f g txid bloque l).1 l
  | [] => by rw [update_sending_txn]
  | info :: rest => by
      rw [update_sending_txn]
      by_cases hc : f info.txn.as_bytes = txid
      · simp only [if_pos hc]
        exact List.sublist_cons_self info rest
      · simp only [if_neg hc]
        exact List.Sublist.cons₂ info (update_sending_fst_sublist f g txid bloque rest)

theorem update_sending_not_found (f g : List Nat → String) (txid : String)
    (bloque : SerializedBlock) :
    ∀ l : List TxnInfo, txid ∉ l.map (fun i => f i.txn.as_bytes) →
      update_sending_txn f g txid bloque l = (l, [])
  | [], _ => by rw [update_sending_txn]
  | info :: rest, hmem => by
      rw [update_sending_txn]
      have hc : f info.txn.as_bytes ≠ txid := by
        intro he
        exact hmem (by simp only [List.map_cons]; rw [← he]; exact List.mem_cons_self _ _)
      simp only [if_neg hc]
      rw [update_sending_not_found f g txid bloque rest
        (fun hm => hmem (by simp only [List.map_cons]; exact List.mem_cons_of_mem _ hm))]

theorem update_sending_removes (f g : List Nat → String) (txid : String)
    (bloque : SerializedBlock) :
    ∀ l : List TxnInfo, (l.map (fun i => f i.txn.as_bytes)).Nodup →
      txid ∉ ((update_sending_txn f g txid bloque l).1.map (fun i => f i.txn.as_bytes))
  | [], _ => by rw [update_sending_txn]; simp
  | info :: rest, hnd => by
      rw [update_sending_txn]
      by_cases hc : f info.txn.as_bytes = txid
      · simp only [if_pos hc]
        simp only [List.map_cons, List.nodup_cons] at hnd
        rw [← hc]
        exact hnd.1
      · simp only [if_neg hc, List.map_cons, List.mem_cons]
        rintro (he | hm)
        · exact hc he.symm
        · exact update_sending_removes f g txid bloque rest
            (by simp only [List.map_cons, List.nodup_cons] at hnd; exact hnd.2) hm

theorem update_receiving_not_found (f : List Nat → String)
    (hF : List Nat → Except RustifyError String) (txid : String) (txn : Txn) :
    ∀ l : List TxnInfo, txid ∉ l.map (fun i => f i.txn.as_bytes) →
      update_receiving_txn f hF txid txn l = some (l, [])
  | [], _ => by rw [update_receiving_txn]
  | info :: rest, hmem => by
      rw [update_receiving_txn]
      have hc : f info.txn.as_bytes ≠ txid := by
        intro he
        exact hmem (by simp only [List.map_cons]; rw [← he]; exact List.mem_cons_self _ _)
      simp only [if_neg hc]
      rw [update_receiving_not_found f hF txid txn rest
        (fun hm => hmem (by simp only [List.map_cons]; exact List.mem_cons_of_mem _ hm))]

theorem update_receiving_ok_fst_sublist (f : List Nat → String)
    (hF : List Nat → Except RustifyError String) (txid : String) (txn : Txn) :
    ∀ (l : List TxnInfo) (r : List TxnInfo × List TxnInfo),
      update_receiving_txn f hF txid txn l = some r → List.Sublist r.1 l
  | [], r, h => by
      rw [update_receiving_txn] at h
      injection h with h
      subst h
      exact List.Sublist.refl _
  | info :: rest, r, h => by
      rw [update_receiving_txn] at h
      by_cases hc : f info.txn.as_bytes = txid
      · simp only [if_pos hc] at h
        split_ifs at h with ha
        · cases hg : txn.tx_in.get? 0 with
          | none => rw [hg] at h; exact Option.noConfusion h
          | some txin0 =>
              rw [hg] at h
              injection h with h
              subst h
              exact List.sublist_cons_self info rest
        · injection h with h
          subst h
          exact List.sublist_cons_self info rest
      · simp only [if_neg hc] at h
        cases hrec : update_receiving_txn f hF txid txn rest with
        | none => rw [hrec] at h; exact Option.noConfusion h
        | some r2 =>
            rw [hrec] at h
            injection h with h
            subst h
            exact List.Sublist.cons₂ info
              (update_receiving_ok_fst_sublist f hF txid txn rest r2 hrec)

theorem update_receiving_removes (f : List Nat → String)
    (hF : List Nat → Except RustifyError String) (txid : String) (txn : Txn) :
    ∀ (l : List TxnInfo) (r : List TxnInfo × List TxnInfo),
      (l.map (fun i => f i.txn.as_bytes)).Nodup →
      update_receiving_txn f hF txid txn l = some r →
      txid ∉ r.1.map (fun i => f i.txn.as_bytes)
  | [], r, _, h => by
      rw [update_receiving_txn] at h
      injection h with h
      subst h
      simp
  | info :: rest, r, hnd, h => by
      rw [update_receiving_txn] at h
      by_cases hc : f info.txn.as_bytes = txid
      · simp only [if_pos hc] at h
        simp only [List.map_cons, List.nodup_cons] at hnd
        split_ifs at h with ha
        · cases hg : txn.tx_in.get? 0 with
          | none => rw [hg] at h; exact Option.noConfusion h
          | some txin0 =>
              rw [hg] at h
              injection h with h
              subst h
              rw [← hc]
              exact hnd.1
        · injection h with h
          subst h
          rw [← hc]
          exact hnd.1
      · simp only [if_neg hc] at h
        cases hrec : update_receiving_txn f hF txid txn rest with
        | none => rw [hrec] at h; exact Option.noConfusion h
        | some r2 =>
            rw [hrec] at h
            injection h with h
            subst h
            simp only [List.map_cons, List.mem_cons]
            rintro (he | hm)
            · exact hc he.symm
            · exact update_receiving_removes f hF txid txn rest r2
                (by simp only [List.map_cons, List.nodup_cons] at hnd; exact hnd.2) hrec hm

theorem procesarPar_ok_fields (dA : String → Except RustifyError (List Nat))
    (f g : List Nat → String) (hF : List Nat → Except RustifyError String)
    (bloque : SerializedBlock) (txn : Txn) (txout : TxOut) (a a2 : Account)
    (hok : procesarPar dA f g hF bloque txn txout a = .ok a2) :
    a2.public_address = a.public_address
    ∧ a2.balance = a.balance
    ∧ a2.utxo_transaction = a.utxo_transaction
    ∧ List.Sublist a2.sending_txn a.sending_txn
    ∧ List.Sublist a2.receiving_txn a.receiving_txn := by
  rw [procesarPar] at hok
  cases hd : dA a.public_address with
  | error e => simp only [hd] at hok; exact PRes.noConfusion hok
  | ok pk =>
      simp only [hd] at hok
      cases hop : obtain_pubkey_hash txout with
      | none => simp only [hop] at hok; exact PRes.noConfusion hok
      | some hh =>
          simp only [hop] at hok
          split_ifs at hok with hif
          · cases hur : update_receiving_txn f hF (f txn.as_bytes) txn a.receiving_txn with
            | none => simp only [hur] at hok; exact PRes.noConfusion hok
            | some r =>
                simp only [hur] at hok
                injection hok with hok
                subst hok
                refine ⟨rfl, rfl, rfl, ?_, ?_⟩
                · exact update_sending_fst_sublist f g (f txn.as_bytes) bloque a.sending_txn
                · exact update_receiving_ok_fst_sublist f hF (f txn.as_bytes) txn
                    a.receiving_txn r hur
          · injection hok with hok
            subst hok
            exact ⟨rfl, rfl, rfl, List.Sublist.refl _, List.Sublist.refl _⟩

theorem procesarPar_ok_matched (dA : String → Except RustifyError (List Nat))
    (f g : List Nat → String) (hF : List Nat → Except RustifyError String)
    (bloque : SerializedBlock) (txn : Txn) (txout : TxOut) (a a2 : Account)
    (pk : List Nat)
    (hdec : dA a.public_address = .ok pk)
    (hmp : obtain_pubkey_hash txout = some pk)
    (hok : procesarPar dA f g hF bloque txn txout a = .ok a2)
    (hndS : (a.sending_txn.map (fun i => f i.txn.as_bytes)).Nodup)
    (hndR : (a.receiving_txn.map (fun i => f i.txn.as_bytes)).Nodup) :
    f txn.as_bytes ∉ a2.sending_txn.map (fun i => f i.txn.as_bytes)
    ∧ f txn.as_bytes ∉ a2.receiving_txn.map (fun i => f i.txn.as_bytes)
    ∧ a2.pending_balance = pendingOf a2.sending_txn := by
  rw [procesarPar] at hok
  simp only [hdec, hmp, eq_self_iff_true, if_true] at hok
  cases hur : update_receiving_txn f hF (f txn.as_bytes) txn a.receiving_txn with
  | none => simp only [hur] at hok; exact PRes.noConfusion hok
  | some r =>
      simp only [hur] at hok
      injection hok with hok
      subst hok
      refine ⟨?_, ?_, rfl⟩
      · exact update_sending_removes f g (f txn.as_bytes) bloque a.sending_txn hndS
      · exact update_receiving_removes f hF (f txn.as_bytes) txn a.receiving_txn r hndR hur

theorem procesarPar_ok_unmatched (dA : String → Except RustifyError (List Nat))
    (f g : List Nat → String) (hF : List Nat → Except RustifyError String)
    (bloque : SerializedBlock) (txn : Txn) (txout : TxOut) (a : Account)
    (pk hh : List Nat)
    (hdec : dA a.public_address = .ok pk)
    (hop : obtain_pubkey_hash txout = some hh)
    (hne : hh ≠ pk) :
    procesarPar dA f g hF bloque txn txout a = .ok a := by
  rw [procesarPar]
  simp only [hdec, hop, if_neg hne]

theorem procesarPar_clean (dA : String → Except RustifyError (List Nat))
    (f g : List Nat → String) (hF : List Nat → Except RustifyError String)
    (bloque : SerializedBlock) (txn : Txn) (txout : TxOut) (a : Account)
    (pk : List Nat)
    (hdec : dA a.public_address = .ok pk)
    (hmp : obtain_pubkey_hash txout = some pk)
    (hS : f txn.as_bytes ∉ a.sending_txn.map (fun i => f i.txn.as_bytes))
    (hR : f txn.as_bytes ∉ a.receiving_txn.map (fun i => f i.txn.as_bytes))
    (hp : a.pending_balance = pendingOf a.sending_txn) :
    procesarPar dA f g hF bloque txn txout a = .ok a := by
  rw [procesarPar]
  simp only [hdec, hmp, eq_self_iff_true, if_true,
    update_sending_not_found f g (f txn.as_bytes) bloque a.sending_txn hS,
    update_receiving_not_found f hF (f txn.as_bytes) txn a.receiving_txn hR,
    update_pending_balance, List.append_nil]
  rw [← hp]

theorem procesarPares_post (dA : String → Except RustifyError (List Nat))
    (f g : List Nat → String) (hF : List Nat → Except RustifyError String)
    (bloque : SerializedBlock) (pk : List Nat) :
    ∀ (pairs : List (Txn × TxOut)) (a afinal : Account),
      procesarPares dA f g hF bloque pairs a = .ok afinal →
      dA a.public_address = .ok pk →
      (a.sending_txn.map (fun i => f i.txn.as_bytes)).Nodup →
      (a.receiving_txn.map (fun i => f i.txn.as_bytes)).Nodup →
      afinal.public_address = a.public_address
      ∧ afinal.balance = a.balance
      ∧ afinal.utxo_transaction = a.utxo_transaction
      ∧ List.Sublist afinal.sending_txn a.sending_txn
      ∧ List.Sublist afinal.receiving_txn a.receiving_txn
      ∧ (∀ p ∈ pairs, obtain_pubkey_hash p.2 ≠ none)
      ∧ (∀ p ∈ pairs, obtain_pubkey_hash p.2 = some pk →
           f p.1.as_bytes ∉ afinal.sending_txn.map (fun i => f i.txn.as_bytes)
           ∧ f p.1.as_bytes ∉ afinal.receiving_txn.map (fun i => f i.txn.as_bytes))
      ∧ ((∀ p ∈ pairs, obtain_pubkey_hash p.2 ≠ some pk) ∧ afinal = a
          ∨ afinal.pending_balance = pendingOf afinal.sending_txn)
  | [], a, afinal, hok, _, _, _ => by
      rw [procesarPares] at hok
      injection hok with hok
      subst hok
      exact ⟨rfl, rfl, rfl, List.Sublist.refl _, List.Sublist.refl _,
        by simp, by simp, Or.inl ⟨by simp, rfl⟩⟩
  | (txn, txout) :: rest, a, afinal, hok, hdec, hndS, hndR => by
      rw [procesarPares] at hok
      cases hstep : procesarPar dA f g hF bloque txn txout a with
      | rerr e => rw [hstep] at hok; exact PRes.noConfusion hok
      | panic => rw [hstep] at hok; exact PRes.noConfusion hok
      | ok a2 =>
          rw [hstep] at hok
          obtain ⟨hpub, hbal, hutxo, hsend, hrecv⟩ :=
            procesarPar_ok_fields dA f g hF bloque txn txout a a2 hstep
          cases hop : obtain_pubkey_hash txout with
          | none =>
              rw [procesarPar] at hstep
              simp only [hdec, hop] at hstep
              exact PRes.noConfusion hstep
          | some hh =>
              by_cases hhp : hh = pk
              · rw [hhp] at hop
                obtain ⟨hrmS, hrmR, hpend⟩ :=
                  procesarPar_ok_matched dA f g hF bloque txn txout a a2 pk hdec hop
                    hstep hndS hndR
                obtain ⟨ihpub, ihbal, ihutxo, ihsend, ihrecv, ihnone, ihclean, ihdisj⟩ :=
                  procesarPares_post dA f g hF bloque pk rest a2 afinal hok
                    (by rw [hpub]; exact hdec)
                    (List.Nodup.sublist (hsend.map _) hndS)
                    (List.Nodup.sublist (hrecv.map _) hndR)
                refine ⟨ihpub.trans hpub, ihbal.trans hbal, ihutxo.trans hutxo,
                  ihsend.trans hsend, ihrecv.trans hrecv, ?_, ?_, ?_⟩
                · intro p hp
                  rcases List.mem_cons.mp hp with rfl | hp2
                  · rw [hop]; exact fun he => Option.noConfusion he
                  · exact ihnone p hp2
                · intro p hp hmp
                  rcases List.mem_cons.mp hp with rfl | hp2
                  · constructor
                    · exact fun hmem => hrmS ((ihsend.map _).subset hmem)
                    · exact fun hmem => hrmR ((ihrecv.map _).subset hmem)
                  · exact ihclean p hp2 hmp
                · rcases ihdisj with ⟨_, rfl⟩ | hcons
                  · exact Or.inr hpend
                  · exact Or.inr hcons
              · have hstep2 :=
                  procesarPar_ok_unmatched dA f g hF bloque txn txout a pk hh hdec hop hhp
                rw [hstep] at hstep2
                injection hstep2 with hstep2
                subst hstep2
                obtain ⟨ihpub, ihbal, ihutxo, ihsend, ihrecv, ihnone, ihclean, ihdisj⟩ :=
                  procesarPares_post dA f g hF bloque pk rest a2 afinal hok hdec hndS hndR
                refine ⟨ihpub, ihbal, ihutxo, ihsend, ihrecv, ?_, ?_, ?_⟩
                · intro p hp
                  rcases List.mem_cons.mp hp with rfl | hp2
                  · rw [hop]; exact fun he => Option.noConfusion he
                  · exact ihnone p hp2
                · intro p hp hmp
                  rcases List.mem_cons.mp hp with rfl | hp2
                  · rw [hop] at hmp
                    injection hmp with hmp
                    exact absurd hmp hhp
                  · exact ihclean p hp2 hmp
                · rcases ihdisj with ⟨hall, rfl⟩ | hcons
                  · refine Or.inl ⟨?_, rfl⟩
                    intro p hp
                    rcases List.mem_cons.mp hp with rfl | hp2
                    · rw [hop]
                      exact fun he => hhp (Option.some.inj he)
                    · exact hall p hp2
                  · exact Or.inr hcons

theorem procesarPares_clean (dA : String → Except RustifyError (List Nat))
    (f g : List Nat → String) (hF : List Nat → Except RustifyError String)
    (bloque : SerializedBlock) (pk : List Nat) :
    ∀ (pairs : List (Txn × TxOut)) (a : Account),
      dA a.public_address = .ok pk →
      (∀ p ∈ pairs, obtain_pubkey_hash p.2 ≠ none) →
      (∀ p ∈ pairs, obtain_pubkey_hash p.2 = some pk →
          f p.1.as_bytes ∉ a.sending_txn.map (fun i => f i.txn.as_bytes)
          ∧ f p.1.as_bytes ∉ a.receiving_txn.map (fun i => f i.txn.as_bytes)) →
      ((∀ p ∈ pairs, obtain_pubkey_hash p.2 ≠ some pk)
        ∨ a.pending_balance = pendingOf a.sending_txn) →
      procesarPares dA f g hF bloque pairs a = .ok a
  | [], a, _, _, _, _ => by rw [procesarPares]
  | (txn, txout) :: rest, a, hdec, hnone, hclean, hdisj => by
      rw [procesarPares]
      cases hop : obtain_pubkey_hash txout with
      | none => exact absurd hop (hnone (txn, txout) (List.mem_cons_self _ _))
      | some hh =>
          by_cases hhp : hh = pk
          · rw [hhp] at hop
            have hp : a.pending_balance = pendingOf a.sending_txn := by
              rcases hdisj with hall | hp
              · exact absurd hop (hall (txn, txout) (List.mem_cons_self _ _))
              · exact hp
            obtain ⟨hS, hR⟩ := hclean (txn, txout) (List.mem_cons_self _ _) hop
            rw [procesarPar_clean dA f g hF bloque txn txout a pk hdec hop hS hR hp]
            exact procesarPares_clean dA f g hF bloque pk rest a hdec
              (fun p hp2 => hnone p (List.mem_cons_of_mem _ hp2))
              (fun p hp2 => hclean p (List.mem_cons_of_mem _ hp2))
              (by
                rcases hdisj with hall | hp2
                · exact Or.inl (fun p hp2 => hall p (List.mem_cons_of_mem _ hp2))
                · exact Or.inr hp2)
          · rw [procesarPar_ok_unmatched dA f g hF bloque txn txout a pk hh hdec hop hhp]
            exact procesarPares_clean dA f g hF bloque pk rest a hdec
              (fun p hp2 => hnone p (List.mem_cons_of_mem _ hp2))
              (fun p hp2 => hclean p (List.mem_cons_of_mem _ hp2))
              (by
                rcases hdisj with hall | hp2
                · exact Or.inl (fun p hp2 => hall p (List.mem_cons_of_mem _ hp2))
                · exact Or.inr hp2)

theorem obtain_account_balance_fields (dA : String → Except RustifyError (List Nat))
    (a : Account) (utxos : List (TrxKey × Txn)) (ab : Account)
    (h : obtain_account_balance dA a utxos = some ab) :
    ab.public_address = a.public_address
    ∧ ab.pending_balance = a.pending_balance
    ∧ ab.sending_txn = a.sending_txn
    ∧ ab.receiving_txn = a.receiving_txn := by
  rw [obtain_account_balance] at h
  cases hd : dA a.public_address with
  | error e =>
      simp only [hd] at h
      injection h with h
      subst h
      exact ⟨rfl, rfl, rfl, rfl⟩
  | ok pk =>
      simp only [hd] at h
      cases hs : accountUtxoScan pk 0 [] utxos with
      | none => simp only [hs] at h; exact Option.noConfusion h
      | some r =>
          simp only [hs] at h
          injection h with h
          subst h
          exact ⟨rfl, rfl, rfl, rfl⟩

theorem obtain_account_balance_again (dA : String → Except RustifyError (List Nat))
    (utxos : List (TrxKey × Txn)) (a ab x : Account)
    (h : obtain_account_balance dA a utxos = some ab)
    (hpub : x.public_address = a.public_address)
    (hbal : x.balance = ab.balance)
    (hutxo : x.utxo_transaction = ab.utxo_transaction) :
    obtain_account_balance dA x utxos = some x := by
  obtain ⟨x1, x2, x3, x4, x5, x6, x7, x8, x9⟩ := x
  rw [obtain_account_balance] at h ⊢
  cases hd : dA a.public_address with
  | error e =>
      simp only [hd] at h
      injection h with h
      subst h
      have hx1 : x1 = a.public_address := hpub
      simp only [hx1, hd]
  | ok pk =>
      simp only [hd] at h
      cases hs : accountUtxoScan pk 0 [] utxos with
      | none => simp only [hs] at h; exact Option.noConfusion h
      | some r =>
          simp only [hs] at h
          injection h with h
          subst h
          have hx1 : x1 = a.public_address := hpub
          have hx3 : x3 = r.1 := hbal
          have hx5 : x5 = r.2 := hutxo
          simp only [hx1, hd, hs, hx3, hx5]

/-! ## Claim C9 -/

/-- C9 counterexample: the pending-to-sent confirmation is not idempotent in
general.  A wallet whose `sending_txn` list holds two entries with the same
txid, confirmed by a block with one matching output, moves one entry per
application (`update_sending_txn` breaks after the first match), so the
second application moves the remaining duplicate and the states differ. -/
theorem c9_confirmation_counterexample :
    ∃ a1 a2 : Account,
      evento_recibir_bloque_cuenta (fun _ => .ok []) (fun _ => "t") (fun _ => "")
          (fun _ => .ok "") []
          ⟨⟨0, [], [], 0, 0, 0⟩, CompactSize.new 1,
            [⟨1, CompactSize.new 1, [], CompactSize.new 1,
              [⟨0, CompactSize.new 5, [0x76, 0xa9, 0, 0x88, 0xac]⟩], 0⟩]⟩
          ⟨"addr", "", 0, 0, [],
            [⟨⟨1, CompactSize.new 1, [], CompactSize.new 1,
                [⟨0, CompactSize.new 5, [0x76, 0xa9, 0, 0x88, 0xac]⟩], 0⟩,
              0, .sending, "", 0, "x", ""⟩,
             ⟨⟨1, CompactSize.new 1, [], CompactSize.new 1,
                [⟨0, CompactSize.new 5, [0x76, 0xa9, 0, 0x88, 0xac]⟩], 0⟩,
              0, .sending, "", 0, "x", ""⟩], [], [], []⟩
        = .ok a1
      ∧ evento_recibir_bloque_cuenta (fun _ => .ok []) (fun _ => "t") (fun _ => "")
          (fun _ => .ok "") []
          ⟨⟨0, [], [], 0, 0, 0⟩, CompactSize.new 1,
            [⟨1, CompactSize.new 1, [], CompactSize.new 1,
              [⟨0, CompactSize.new 5, [0x76, 0xa9, 0, 0x88, 0xac]⟩], 0⟩]⟩
          a1
        = .ok a2
      ∧ a1.sending_txn ≠ a2.sending_txn :=
  ⟨_, _, rfl, rfl, by decide⟩

/-- C9 (amended): provided the txids of the account's `sending_txn` entries
are pairwise distinct, and likewise those of its `receiving_txn` entries,
the per-account confirmation processing of a received block is idempotent:
if one application succeeds, applying it again returns the same account
unchanged.  The first application moves each matched pending entry out of the
pending lists (txid uniqueness makes the single removed copy the only match),
recomputes the pending balance from the final pending-send list, and leaves
the balance and owned-UTXO recomputation a fixed point; the second
application therefore finds no matching pending entry.  Without the
distinctness proviso the property fails (see the counterexample). -/
theorem c9_confirmation_idempotent (dA : String → Except RustifyError (List Nat))
    (f g : List Nat → String) (hF : List Nat → Except RustifyError String)
    (utxos : List (TrxKey × Txn)) (bloque : SerializedBlock) (a a1 : Account)
    (hok : evento_recibir_bloque_cuenta dA f g hF utxos bloque a = .ok a1)
    (hndS : (a.sending_txn.map (fun i => f i.txn.as_bytes)).Nodup)
    (hndR : (a.receiving_txn.map (fun i => f i.txn.as_bytes)).Nodup) :
    evento_recibir_bloque_cuenta dA f g hF utxos bloque a1 = .ok a1 := by
  rw [evento_recibir_bloque_cuenta] at hok
  cases hb : obtain_account_balance dA a utxos with
  | none => rw [hb] at hok; exact PRes.noConfusion hok
  | some ab =>
      simp only [hb] at hok
      obtain ⟨habPub, habPend, habSend, habRecv⟩ :=
        obtain_account_balance_fields dA a utxos ab hb
      cases hd : dA a.public_address with
      | error e =>
          cases hp : bloquePares bloque with
          | nil =>
              rw [hp, procesarPares] at hok
              injection hok with hok
              subst hok
              have hagain := obtain_account_balance_again dA utxos a ab ab hb habPub rfl rfl
              rw [evento_recibir_bloque_cuenta]
              simp only [hagain, hp, procesarPares]
          | cons p rest =>
              obtain ⟨txn, txout⟩ := p
              rw [hp, procesarPares, procesarPar] at hok
              rw [habPub] at hok
              simp only [hd] at hok
              exact PRes.noConfusion hok
      | ok pk =>
          obtain ⟨ihpub, ihbal, ihutxo, ihsend, ihrecv, ihnone, ihclean, ihdisj⟩ :=
            procesarPares_post dA f g hF bloque pk (bloquePares bloque) ab a1 hok
              (by rw [habPub]; exact hd)
              (by rw [habSend]; exact hndS)
              (by rw [habRecv]; exact hndR)
          rw [evento_recibir_bloque_cuenta,
            obtain_account_balance_again dA utxos a ab a1 hb
              (by rw [ihpub, habPub]) ihbal ihutxo]
          exact procesarPares_clean dA f g hF bloque pk (bloquePares bloque) a1
            (by rw [ihpub, habPub]; exact hd) ihnone ihclean
            (by
              rcases ihdisj with ⟨hall, rfl⟩ | hcons
              · exact Or.inl hall
              · exact Or.inr hcons)

/-- Witness for C9: a wallet with no pending transactions and an empty block;
one application returns the account unchanged, and the theorem applied there
gives the second application. -/
theorem c9_confirmation_idempotent_witness :
    evento_recibir_bloque_cuenta (fun _ => .ok []) (fun _ => "") (fun _ => "")
        (fun _ => .ok "") [] ⟨⟨0, [], [], 0, 0, 0⟩, CompactSize.new 0, []⟩
        ⟨"", "", 0, 0, [], [], [], [], []⟩
      = .ok ⟨"", "", 0, 0, [], [], [], [], []⟩ :=
  c9_confirmation_idempotent (fun _ => .ok []) (fun _ => "") (fun _ => "")
    (fun _ => .ok "") [] ⟨⟨0, [], [], 0, 0, 0⟩, CompactSize.new 0, []⟩
    ⟨"", "", 0, 0, [], [], [], [], []⟩ ⟨"", "", 0, 0, [], [], [], [], []⟩
    rfl (by decide) (by decide)

end Rustify
